import Mathlib

/-!
Verification of the attention-flow / session-structure analysis engine of the
cognitive-trails browser extension.  The JavaScript sources are shallowly
embedded: numbers are modelled as rationals (written with `mkRat` so that all
definitions evaluate by kernel reduction), and as reals where the code divides
by a square root; JS `Map`s become association lists or finitely supported
functions; fallible operations return `Option`.  Browser built-ins that the
code calls (`new URL`, `Date#getHours`, `Array#sort`) are modelled by small
explicit functions, documented at their definitions.
-/

set_option maxHeartbeats 1000000
set_option maxRecDepth 8000

namespace CognitiveTrails

/-- Model of a raw history item as consumed by the pipeline: `url`, `title`
(missing titles are the empty string) and `lastVisitTime` in ms. -/
structure Item where
  url : String
  title : String
  time : ℤ
deriving DecidableEq, Repr

/-- Splitting of a character list at every separator character, keeping empty
fragments, as the JS `String.prototype.split` does with a character class.
Defined structurally so that it evaluates inside the kernel. -/
def chSplit (p : Char → Bool) : List Char → List (List Char)
  | [] => [[]]
  | c :: t =>
    match chSplit p t with
    | [] => [[]]
    | cur :: rest => if p c then [] :: cur :: rest else (c :: cur) :: rest

/-- Stable insertion of an element into a list, ascending by the key `f`. -/
def insertBy {α : Type} (f : α → α → Bool) (x : α) : List α → List α
  | [] => [x]
  | y :: t => if f x y then x :: y :: t else y :: insertBy f x t

/-- Model of the JS stable `Array.prototype.sort` with an ascending comparator:
stable insertion sort (an element moves before another only when it is
strictly smaller). -/
def sortBy {α : Type} (lt : α → α → Bool) (l : List α) : List α :=
  l.foldr (insertBy lt) []

lemma insertBy_perm {α : Type} (f : α → α → Bool) (x : α) (l : List α) :
    (insertBy f x l).Perm (x :: l) := by
  induction l with
  | nil => exact List.Perm.refl _
  | cons y t ih =>
    unfold insertBy
    split
    · exact List.Perm.refl _
    · exact ((ih.cons y).trans (List.Perm.swap x y t)).symm.symm

lemma sortBy_perm {α : Type} (lt : α → α → Bool) (l : List α) :
    (sortBy lt l).Perm l := by
  induction l with
  | nil => exact List.Perm.refl _
  | cons y t ih => exact (insertBy_perm lt y (sortBy lt t)).trans (ih.cons y)

lemma sortBy_length {α : Type} (lt : α → α → Bool) (l : List α) :
    (sortBy lt l).length = l.length :=
  (sortBy_perm lt l).length_eq

/-- Character class of the JS regex `\w` (word character). -/
def isWordChar (c : Char) : Bool :=
  c.isAlphanum || c = '_'

/-- Embedding of `LocalSemanticAnalyzer.tokenize` (semanticLocal.js): lowercase,
replace every non-word non-space character by a space, split on whitespace and
drop empty fragments. -/
def tokenize (text : String) : List String :=
  let lowered := text.toList.map Char.toLower
  let replaced := lowered.map (fun c => if isWordChar c || c.isWhitespace then c else ' ')
  ((chSplit (fun c => c.isWhitespace) replaced).map (fun l => (⟨l⟩ : String))).filter
    (fun t => t ≠ "")

/-- The stop-word set of `LocalSemanticAnalyzer` (semanticLocal.js). -/
def stopWords : List String :=
  ["a", "an", "and", "are", "as", "at", "be", "by", "for", "from",
   "has", "he", "in", "is", "it", "its", "of", "on", "that", "the",
   "to", "was", "will", "with", "www", "com", "org", "net", "html", "php"]

/-- The semantic word-group table of `LocalSemanticAnalyzer` (semanticLocal.js). -/
def semanticGroups : List (String × List String) :=
  [("ai_tech", ["ai", "artificial", "intelligence", "machine", "learning", "claude", "anthropic", "chatbot", "assistant", "bot", "neural", "model"]),
   ("programming", ["code", "coding", "programming", "developer", "development", "software", "engineer", "engineering", "github", "stackoverflow", "python", "javascript", "java"]),
   ("career", ["job", "jobs", "career", "careers", "employment", "work", "professional", "linkedin", "indeed", "resume", "hiring", "salary"]),
   ("social", ["social", "facebook", "twitter", "instagram", "network", "networking", "community", "discussion", "forum", "reddit"]),
   ("news", ["news", "article", "story", "report", "journalism", "media", "press", "breaking", "update", "politics"]),
   ("shopping", ["shop", "shopping", "buy", "purchase", "store", "retail", "amazon", "ebay", "product", "price"]),
   ("video", ["video", "watch", "streaming", "youtube", "netflix", "movie", "film", "entertainment"]),
   ("education", ["learn", "learning", "education", "course", "tutorial", "guide", "university", "school", "wikipedia"])]

/-- Embedding of the `wordToGroups` reverse lookup: the groups a token belongs
to, in table order. -/
def wordToGroups (t : String) : List String :=
  (semanticGroups.filter (fun g => g.2.contains t)).map (fun g => g.1)

/-- Embedding of `jaccardSimilarity` (semanticLocal.js): set Jaccard index of
two token lists, `0` when the union is empty. -/
def jaccardSimilarity (tokensA tokensB : List String) : ℚ :=
  let setA := tokensA.toFinset
  let setB := tokensB.toFinset
  let inter := setA ∩ setB
  let union := setA ∪ setB
  if 0 < union.card then mkRat inter.card union.card else 0

/-- Helper for the JS `String.prototype.includes` substring test, on character
lists. -/
def listIncl (needle : List Char) : List Char → Bool
  | [] => needle.isEmpty
  | c :: t => needle.isPrefixOf (c :: t) || listIncl needle t

/-- Model of the JS `hay.includes(needle)` substring test. -/
def strIncl (hay needle : String) : Bool :=
  listIncl needle.toList hay.toList

/-- Last fragment of a domain after splitting on dots, per the JS
`domain.split('.').pop()`. -/
def domainTld (d : String) : String :=
  ⟨(chSplit (fun c => c = '.') d.toList).getLastD []⟩

/-- Embedding of `domainSimilarity` (semanticLocal.js): `1` on equal domains,
`0.3` on a shared institutional TLD, `0.6` on a substring (subdomain)
relation, else `0`. -/
def domainSimilarity (domainA domainB : String) : ℚ :=
  if domainA = domainB then 1
  else if domainTld domainA = domainTld domainB ∧
      (domainTld domainA = "edu" ∨ domainTld domainA = "gov" ∨ domainTld domainA = "org") then
    mkRat 3 10
  else if strIncl domainA domainB || strIncl domainB domainA then mkRat 6 10
  else 0

/-- The multi-domain company table of `companySimilarity` (semanticLocal.js). -/
def companies : List (List String) :=
  [["anthropic.com", "claude.ai", "docs.anthropic.com", "console.anthropic.com"],
   ["google.com", "youtube.com", "gmail.com", "drive.google.com"],
   ["microsoft.com", "outlook.com", "office.com", "github.com"],
   ["facebook.com", "instagram.com", "whatsapp.com", "meta.com"],
   ["amazon.com", "aws.amazon.com", "prime.amazon.com"],
   ["linkedin.com", "indeed.com", "glassdoor.com"],
   ["stackoverflow.com", "stackexchange.com", "serverfault.com"]]

/-- Whether a domain hits a company group, per the JS
`companyDomains.some(domain => domainX.includes(domain) || domain.includes(domainX))`. -/
def companyHit (group : List String) (d : String) : Bool :=
  group.any (fun dom => strIncl d dom || strIncl dom d)

/-- Embedding of `companySimilarity` (semanticLocal.js): `1` when some company
group is hit by both domains (the JS loop returns on the first such group),
else `0`. -/
def companySimilarity (domainA domainB : String) : ℚ :=
  if companies.any (fun g => companyHit g domainA && companyHit g domainB) then 1 else 0

/-- A finitely supported weight vector, modelling the JS `Map` produced by
`getSemanticVector`: `support` is the key set, `val` is `0` outside it. -/
structure SemVec where
  support : Finset String
  val : String → ℝ

/-- Contribution of one token to the weight-map slot `k`, per the
`getSemanticVector` loop: a direct `0.3` on its own slot plus `2.0` on the
`GROUP_` slot of every semantic group containing the token. -/
def tokContrib (t k : String) : ℚ :=
  (if k = t then mkRat 3 10 else 0) +
    2 * (((wordToGroups t).filter (fun g => k = "GROUP_" ++ g)).length : ℚ)

/-- Unnormalized value of the `getSemanticVector` weight map at key `k`. -/
def rawVal (tokens : List String) (k : String) : ℚ :=
  (tokens.map (fun t => tokContrib t k)).sum

/-- Key set of the `getSemanticVector` weight map: the tokens themselves plus
the `GROUP_` keys of their semantic groups. -/
def vecSupport (tokens : List String) : Finset String :=
  (tokens ++ tokens.flatMap (fun t => (wordToGroups t).map (fun g => "GROUP_" ++ g))).toFinset

/-- Squared magnitude of the weight map: the sum of squared values over its
keys (the code computes `Math.sqrt` of exactly this sum). -/
def sumSq (tokens : List String) : ℚ :=
  ∑ k ∈ vecSupport tokens, (rawVal tokens k) ^ 2

/-- Embedding of `getSemanticVector` (semanticLocal.js): accumulate token and
group weights, then L2-normalize when the magnitude is positive. -/
noncomputable def getSemanticVector (tokens : List String) : SemVec :=
  { support := vecSupport tokens
    val := fun k =>
      if 0 < sumSq tokens then (rawVal tokens k : ℝ) / Real.sqrt (sumSq tokens : ℝ)
      else (rawVal tokens k : ℝ) }

open Classical in
/-- Embedding of `semanticVectorSimilarity` (semanticLocal.js): cosine over the
union of the two key sets, `0` when there are no keys or the denominator is
zero. -/
noncomputable def semanticVectorSimilarity (a b : SemVec) : ℝ :=
  let ks := a.support ∪ b.support
  if ks = ∅ then 0
  else
    let dot := ∑ k ∈ ks, a.val k * b.val k
    let na := ∑ k ∈ ks, a.val k * a.val k
    let nb := ∑ k ∈ ks, b.val k * b.val k
    let den := Real.sqrt na * Real.sqrt nb
    if den = 0 then 0 else dot / den

/-- The feature record produced by `extractFeatures` (semanticLocal.js). -/
structure Feature where
  tokens : List String
  domain : String
  semanticVector : SemVec

/-- Embedding of `LocalSemanticAnalyzer.calculateSimilarity` (semanticLocal.js):
the four signals combined with adaptive weights, boosted when there is a strong
domain or company relation, and capped at `1.0`.  The URL-keyed cache is pure
memoization and is not modelled. -/
noncomputable def calculateSimilarity (fa fb : Feature) : ℝ :=
  let semantic := semanticVectorSimilarity fa.semanticVector fb.semanticVector
  let jac := jaccardSimilarity fa.tokens fb.tokens
  let dom := domainSimilarity fa.domain fb.domain
  let comp := companySimilarity fa.domain fb.domain
  let finalSimilarity : ℝ :=
    if mkRat 6 10 ≤ dom ∨ mkRat 9 10 ≤ comp then
      semantic * 0.2 + (jac : ℝ) * 0.3 + (dom : ℝ) * 0.2 + (comp : ℝ) * 0.3
        + (if mkRat 6 10 ≤ dom then 0.4 else 0) + (if mkRat 9 10 ≤ comp then 0.3 else 0)
    else
      semantic * 0.4 + (jac : ℝ) * 0.3 + (dom : ℝ) * 0.2 + (comp : ℝ) * 0.1
  min finalSimilarity 1

/-- Hostname and pathname of a parsed URL. -/
structure UrlParts where
  hostname : String
  pathname : String
deriving DecidableEq, Repr

/-- Model of the browser `new URL(url)` constructor, restricted to the http(s)
URLs the pipeline sees: it succeeds exactly on strings of the form
`http(s)://host[/path]` with a nonempty host, and fails (throws) otherwise.
Queries and fragments are left inside `pathname`; no claim depends on them. -/
def parseUrl (url : String) : Option UrlParts :=
  let cs := url.toList
  let rest : Option (List Char) :=
    if "https://".toList.isPrefixOf cs then some (cs.drop 8)
    else if "http://".toList.isPrefixOf cs then some (cs.drop 7)
    else none
  match rest with
  | none => none
  | some r =>
    let host := r.takeWhile (fun c => c ≠ '/')
    if host.isEmpty then none
    else
      let p := r.dropWhile (fun c => c ≠ '/')
      some ⟨⟨host⟩, if p.isEmpty then "/" else ⟨p⟩⟩

/-- Removal of the first occurrence of `pat` from a character list, modelling
the single-replacement JS `str.replace('www.', '')`. -/
def removeFirstSub (pat : List Char) : List Char → List Char
  | [] => []
  | c :: t =>
    if pat.isPrefixOf (c :: t) then (c :: t).drop pat.length else c :: removeFirstSub pat t

/-- Model of `hostname.replace('www.', '')`: drop the first occurrence of
`www.`. -/
def stripWww (host : String) : String :=
  ⟨removeFirstSub "www.".toList host.toList⟩

/-- Lowercasing a string, as the JS `toLowerCase` on the ASCII strings the
pipeline handles. -/
def strToLower (s : String) : String :=
  ⟨s.toList.map Char.toLower⟩

/-- Embedding of `extractFeatures` (semanticLocal.js).  The happy path
tokenizes title, path segments and domain, removes stop words and short
tokens, and builds the semantic vector; the catch path (malformed URL) keeps
the raw title as the only token, uses the raw URL as domain, and leaves the
vector empty. -/
noncomputable def extractFeatures (item : Item) : Feature :=
  match parseUrl item.url with
  | some u =>
    let domain := stripWww u.hostname
    let titleTokens := tokenize item.title
    let pathTokens :=
      ((chSplit (fun c => c = '/') u.pathname.toList).filter
          (fun seg => !seg.isEmpty && 2 < seg.length && !(seg.all Char.isDigit))).flatMap
        (fun seg => tokenize ⟨seg.map (fun c => if c = '-' || c = '_' then ' ' else c)⟩)
    let domainTokens := tokenize ⟨domain.toList.map (fun c => if c = '.' then ' ' else c)⟩
    let allTokens := titleTokens ++ pathTokens ++ domainTokens
    let cleanTokens :=
      (allTokens.filter (fun t => 2 < t.length && !(stopWords.contains t))).map strToLower
    { tokens := cleanTokens, domain := domain, semanticVector := getSemanticVector cleanTokens }
  | none =>
    { tokens := if item.title = "" then [] else [item.title]
      domain := item.url
      semanticVector := ⟨∅, fun _ => 0⟩ }

/-- Similarity of two raw history items, `extractFeatures` composed with
`calculateSimilarity` as in the source. -/
noncomputable def eventSimilarity (a b : Item) : ℝ :=
  calculateSimilarity (extractFeatures a) (extractFeatures b)

/-- The three transition kinds. -/
inductive TransitionType where
  | related
  | topic_shift
  | context_switch
deriving DecidableEq, Repr

/-- Embedding of the transition-classification policy, shared verbatim by
`classifyTransition` (semanticLocal.js worker) and the `processHistoryData`
loop: `related` inside the 5-minute window with similarity at or above the
related threshold, else `topic_shift` when the similarity reaches the
topic-shift threshold or the gap is within 30 minutes, else `context_switch`. -/
def classifyTransition (sim : ℚ) (timeDiffMs : ℤ) (relatedT topicShiftT : ℚ) : TransitionType :=
  if timeDiffMs ≤ 5 * 60 * 1000 ∧ relatedT ≤ sim then .related
  else if topicShiftT ≤ sim ∨ timeDiffMs ≤ 30 * 60 * 1000 then .topic_shift
  else .context_switch

lemma tokContrib_nonneg (t k : String) : 0 ≤ tokContrib t k := by
  unfold tokContrib
  have h2 : (0 : ℚ) ≤ 2 * (((wordToGroups t).filter (fun g => k = "GROUP_" ++ g)).length : ℚ) := by
    positivity
  have h3 : (0 : ℚ) ≤ mkRat 3 10 := by rw [Rat.mkRat_eq_div]; norm_num
  split_ifs <;> linarith

lemma rawVal_nonneg (tokens : List String) (k : String) : 0 ≤ rawVal tokens k := by
  refine List.sum_nonneg ?_
  intro x hx
  obtain ⟨t, _, rfl⟩ := List.mem_map.mp hx
  exact tokContrib_nonneg t k

lemma getSemanticVector_val_nonneg (tokens : List String) (k : String) :
    0 ≤ (getSemanticVector tokens).val k := by
  unfold getSemanticVector
  dsimp only
  split_ifs
  · exact div_nonneg (by exact_mod_cast rawVal_nonneg tokens k) (Real.sqrt_nonneg _)
  · exact_mod_cast rawVal_nonneg tokens k

lemma semanticVectorSimilarity_nonneg (a b : SemVec)
    (ha : ∀ k, 0 ≤ a.val k) (hb : ∀ k, 0 ≤ b.val k) :
    0 ≤ semanticVectorSimilarity a b := by
  unfold semanticVectorSimilarity
  dsimp only
  split_ifs
  · exact le_refl 0
  · exact le_refl 0
  · refine div_nonneg ?_ (mul_nonneg (Real.sqrt_nonneg _) (Real.sqrt_nonneg _))
    exact Finset.sum_nonneg fun k _ => mul_nonneg (ha k) (hb k)

lemma jaccardSimilarity_nonneg (a b : List String) : 0 ≤ jaccardSimilarity a b := by
  unfold jaccardSimilarity
  dsimp only
  split_ifs
  · rw [Rat.mkRat_eq_div]
    positivity
  · exact le_refl 0

lemma jaccardSimilarity_le_one (a b : List String) : jaccardSimilarity a b ≤ 1 := by
  unfold jaccardSimilarity
  dsimp only
  split_ifs with h
  · rw [Rat.mkRat_eq_div, div_le_one (by exact_mod_cast h)]
    exact_mod_cast Finset.card_le_card Finset.inter_subset_union
  · norm_num

lemma domainSimilarity_nonneg (a b : String) : 0 ≤ domainSimilarity a b := by
  unfold domainSimilarity
  split_ifs <;> simp [Rat.mkRat_eq_div] <;> norm_num

lemma companySimilarity_nonneg (a b : String) : 0 ≤ companySimilarity a b := by
  unfold companySimilarity
  split_ifs <;> norm_num

lemma extractFeatures_val_nonneg (item : Item) (k : String) :
    0 ≤ (extractFeatures item).semanticVector.val k := by
  unfold extractFeatures
  cases h : parseUrl item.url <;> dsimp only
  · exact le_refl 0
  · exact getSemanticVector_val_nonneg _ k

/-- Written from the specification text of the combination policy (spec §4.2 /
claim C2), to be compared with the source `calculateSimilarity`: adaptive
weights 0.2/0.3/0.2/0.3 with flat bonuses in the strong-relation branch,
0.4/0.3/0.2/0.1 otherwise, final score clamped to the interval [0,1]. -/
noncomputable def specCombinedScore (semantic : ℝ) (jac dom comp : ℚ) : ℝ :=
  let weighted : ℝ :=
    if mkRat 6 10 ≤ dom ∨ mkRat 9 10 ≤ comp then
      0.2 * semantic + 0.3 * (jac : ℝ) + 0.2 * (dom : ℝ) + 0.3 * (comp : ℝ)
        + (if mkRat 6 10 ≤ dom then 0.4 else 0) + (if mkRat 9 10 ≤ comp then 0.3 else 0)
    else
      0.4 * semantic + 0.3 * (jac : ℝ) + 0.2 * (dom : ℝ) + 0.1 * (comp : ℝ)
  max 0 (min weighted 1)

lemma calculateSimilarity_eq_spec (fa fb : Feature)
    (ha : ∀ k, 0 ≤ fa.semanticVector.val k) (hb : ∀ k, 0 ≤ fb.semanticVector.val k) :
    calculateSimilarity fa fb =
      specCombinedScore (semanticVectorSimilarity fa.semanticVector fb.semanticVector)
        (jaccardSimilarity fa.tokens fb.tokens)
        (domainSimilarity fa.domain fb.domain)
        (companySimilarity fa.domain fb.domain) := by
  have hs := semanticVectorSimilarity_nonneg _ _ ha hb
  have hj := jaccardSimilarity_nonneg fa.tokens fb.tokens
  have hd := domainSimilarity_nonneg fa.domain fb.domain
  have hc := companySimilarity_nonneg fa.domain fb.domain
  have hj' : (0 : ℝ) ≤ (jaccardSimilarity fa.tokens fb.tokens : ℝ) := by exact_mod_cast hj
  have hd' : (0 : ℝ) ≤ (domainSimilarity fa.domain fb.domain : ℝ) := by exact_mod_cast hd
  have hc' : (0 : ℝ) ≤ (companySimilarity fa.domain fb.domain : ℝ) := by exact_mod_cast hc
  unfold calculateSimilarity specCombinedScore
  dsimp only
  split_ifs with hbranch hdb hcb <;>
    rw [max_eq_right (le_min (by nlinarith) (by norm_num))] <;> ring_nf

lemma eventSimilarity_bounds (a b : Item) :
    0 ≤ eventSimilarity a b ∧ eventSimilarity a b ≤ 1 := by
  have h := calculateSimilarity_eq_spec (extractFeatures a) (extractFeatures b)
    (extractFeatures_val_nonneg a) (extractFeatures_val_nonneg b)
  unfold eventSimilarity
  rw [h]
  unfold specCombinedScore
  constructor
  · exact le_max_left 0 _
  · exact max_le (by norm_num) (min_le_right _ 1)

/-- C1: the transition classifier labels a pair `related` exactly when the gap
is at most 5 minutes and the similarity reaches the related threshold;
otherwise `topic_shift` exactly when the similarity reaches the topic-shift
threshold or the gap is at most 30 minutes; otherwise `context_switch`.  In
particular a 2-hour gap with similarity 0.0 is a `context_switch` and a
2-minute gap with similarity 0.9 is `related`, at both the configured default
thresholds (0.50/0.25) and the in-file fallback defaults (0.70/0.40). -/
theorem C1_transition_classifier (sim : ℚ) (td : ℤ) (rel ts : ℚ) :
    (classifyTransition sim td rel ts = .related ↔ td ≤ 5 * 60 * 1000 ∧ rel ≤ sim) ∧
    (classifyTransition sim td rel ts = .topic_shift ↔
      ¬(td ≤ 5 * 60 * 1000 ∧ rel ≤ sim) ∧ (ts ≤ sim ∨ td ≤ 30 * 60 * 1000)) ∧
    (classifyTransition sim td rel ts = .context_switch ↔
      ¬(td ≤ 5 * 60 * 1000 ∧ rel ≤ sim) ∧ ¬(ts ≤ sim ∨ td ≤ 30 * 60 * 1000)) ∧
    classifyTransition 0 (2 * 60 * 60 * 1000) (mkRat 1 2) (mkRat 1 4) = .context_switch ∧
    classifyTransition (mkRat 9 10) (2 * 60 * 1000) (mkRat 1 2) (mkRat 1 4) = .related ∧
    classifyTransition 0 (2 * 60 * 60 * 1000) (mkRat 7 10) (mkRat 4 10) = .context_switch ∧
    classifyTransition (mkRat 9 10) (2 * 60 * 1000) (mkRat 7 10) (mkRat 4 10) = .related := by
  refine ⟨?_, ?_, ?_, by decide, by decide, by decide, by decide⟩ <;>
    · unfold classifyTransition
      split_ifs <;> simp_all

/-- C2: the similarity combiner equals the specified adaptive weighting (weights
0.2/0.3/0.2/0.3 plus flat +0.4 and +0.3 bonuses in the strong domain/company
branch, 0.4/0.3/0.2/0.1 otherwise, clamped to [0,1]) on every pair of visit
events; the final score always lies in [0,1]; and for the domains `claude.ai`
and `docs.anthropic.com` the company relation is 1.0 (the domain relation
alone is 0), so the boosted weighting branch applies. -/
theorem C2_similarity_combiner :
    (∀ a b : Item,
      eventSimilarity a b =
        specCombinedScore
          (semanticVectorSimilarity (extractFeatures a).semanticVector
            (extractFeatures b).semanticVector)
          (jaccardSimilarity (extractFeatures a).tokens (extractFeatures b).tokens)
          (domainSimilarity (extractFeatures a).domain (extractFeatures b).domain)
          (companySimilarity (extractFeatures a).domain (extractFeatures b).domain)) ∧
    (∀ a b : Item, 0 ≤ eventSimilarity a b ∧ eventSimilarity a b ≤ 1) ∧
    companySimilarity "claude.ai" "docs.anthropic.com" = 1 ∧
    domainSimilarity "claude.ai" "docs.anthropic.com" = 0 ∧
    (mkRat 6 10 ≤ domainSimilarity "claude.ai" "docs.anthropic.com" ∨
      mkRat 9 10 ≤ companySimilarity "claude.ai" "docs.anthropic.com") := by
  refine ⟨fun a b => ?_, eventSimilarity_bounds, by decide, by decide, by decide⟩
  exact calculateSimilarity_eq_spec _ _ (extractFeatures_val_nonneg a) (extractFeatures_val_nonneg b)

/-- The mutable calibration state of the worker (semanticLocal.js):
`similaritySamples` plus the two thresholds of `SEMANTIC_CONFIG.thresholds`. -/
structure CalibState where
  samples : List ℚ
  related : ℚ
  topicShift : ℚ
deriving DecidableEq, Repr

/-- Rolling sample-buffer capacity, `SEMANTIC_CONFIG.calibration.window`. -/
def calibrationWindow : ℕ := 500

/-- Recalibration interval, `SEMANTIC_CONFIG.calibration.adjustEvery`. -/
def calibrationAdjustEvery : ℕ := 100

/-- Target top fraction, `SEMANTIC_CONFIG.calibration.targetTopFraction`. -/
def targetTopFraction : ℚ := mkRat 33 100

/-- The startup state: empty buffer and the `SEMANTIC_CONFIG.thresholds`
defaults (related 0.50, topicShift 0.25). -/
def defaultThresholds : CalibState :=
  ⟨[], mkRat 1 2, mkRat 1 4⟩

/-- The `similaritySamples.slice(-cfg.window)` step of `calibrateIfNeeded`. -/
def calibSlice (st : CalibState) : List ℚ :=
  st.samples.drop (st.samples.length - calibrationWindow)

/-- The `[...similaritySamples].sort((a,b)=>a-b)` step of `calibrateIfNeeded`. -/
def calibSorted (st : CalibState) : List ℚ :=
  sortBy (fun a b => decide (a < b)) (calibSlice st)

/-- The `Math.floor((1-cfg.targetTopFraction)*sorted.length)` index of
`calibrateIfNeeded`. -/
def calibIdx (st : CalibState) : ℕ :=
  (⌊(1 - targetTopFraction) * ((calibSorted st).length : ℚ)⌋).toNat

/-- The `sorted[idx] || SEMANTIC_CONFIG.thresholds.related` candidate of
`calibrateIfNeeded`: an out-of-range access and the falsy value `0` both fall
back to the current related threshold. -/
def calibCandidate (st : CalibState) : ℚ :=
  let v := (calibSorted st).getD (calibIdx st) 0
  if v = 0 then st.related else v

/-- Embedding of `calibrateIfNeeded` (semanticLocal.js): a no-op until the
buffer holds `window` samples; otherwise keep the last `window` samples, sort
them ascending, take the value at the target percentile and clamp it to
`[topicShift + 0.01, 0.95]`.  The persistence side channel (`saveThresholds`
on changes above epsilon) is external and not modelled. -/
def calibrateIfNeeded (st : CalibState) : CalibState :=
  if st.samples.length < calibrationWindow then st
  else
    { st with
      samples := calibSlice st
      related := max (st.topicShift + mkRat 1 100) (min (mkRat 19 20) (calibCandidate st)) }

/-- Embedding of `noteSimilarity` (semanticLocal.js): push the sample and run
`calibrateIfNeeded` on every `adjustEvery`-th observation. -/
def noteSimilarity (st : CalibState) (sim : ℚ) : CalibState :=
  let st1 : CalibState := { st with samples := st.samples ++ [sim] }
  if st1.samples.length % calibrationAdjustEvery = 0 then calibrateIfNeeded st1 else st1

/-- C3 counterexample: feeding exactly `adjustEvery` (100) samples of 0.9 to
the calibrator from the default state leaves `relatedThreshold` at its default
0.50 — it is not raised, because `calibrateIfNeeded` returns unchanged until
the buffer holds `window` (500) samples. -/
theorem C3_counterexample :
    ((List.replicate 100 (mkRat 9 10)).foldl noteSimilarity defaultThresholds).related
      = mkRat 1 2 ∧
    (List.replicate 100 (mkRat 9 10)).length = calibrationAdjustEvery := by
  constructor <;> decide

/-- C3 amended: recalibration only fires once the rolling buffer holds at
least `window` (500) samples.  When it fires (and the floor `topicShift+0.01`
is itself at most 0.95), the new related threshold is clamped into
`[topicShift + 0.01, 0.95]`; and if all buffered samples are 0.9 with the
default topic-shift floor 0.25, the related threshold becomes exactly 0.9,
the target-percentile value of the observed samples. -/
theorem C3_amended (st : CalibState)
    (hlen : calibrationWindow ≤ st.samples.length)
    (hts : st.topicShift ≤ mkRat 94 100) :
    (st.topicShift + mkRat 1 100 ≤ (calibrateIfNeeded st).related ∧
      (calibrateIfNeeded st).related ≤ mkRat 19 20) ∧
    ((∀ x ∈ st.samples, x = mkRat 9 10) → st.topicShift = mkRat 1 4 →
      (calibrateIfNeeded st).related = mkRat 9 10) := by
  have hnot : ¬ st.samples.length < calibrationWindow := by omega
  constructor
  · unfold calibrateIfNeeded
    rw [if_neg hnot]
    have hts' : st.topicShift + mkRat 1 100 ≤ mkRat 19 20 := by
      rw [Rat.mkRat_eq_div] at hts
      rw [Rat.mkRat_eq_div, Rat.mkRat_eq_div]
      push_cast at hts ⊢
      linarith
    exact ⟨le_max_left _ _, max_le hts' (min_le_left _ _)⟩
  · intro hall hts4
    have hslicelen : (calibSlice st).length = 500 := by
      unfold calibSlice
      simp only [List.length_drop]
      unfold calibrationWindow at hlen ⊢
      omega
    have hsortlen : (calibSorted st).length = 500 :=
      ((sortBy_perm _ _).length_eq).trans hslicelen
    have hidx : calibIdx st = 335 := by
      unfold calibIdx
      rw [hsortlen]
      have h335 : ((1 - targetTopFraction) * ((500 : ℕ) : ℚ)) = ((335 : ℤ) : ℚ) := by
        unfold targetTopFraction
        rw [Rat.mkRat_eq_div]
        push_cast
        norm_num
      rw [h335, Int.floor_intCast]
      rfl
    have hbound : calibIdx st < (calibSorted st).length := by omega
    have hgd : (calibSorted st).getD (calibIdx st) 0
        = (calibSorted st).get ⟨calibIdx st, hbound⟩ := by
      rw [List.getD_eq_getElem _ _ hbound]
      simp
    have hmem : (calibSorted st).get ⟨calibIdx st, hbound⟩ ∈ calibSorted st :=
      List.get_mem _ _ _
    have hmem2 : (calibSorted st).get ⟨calibIdx st, hbound⟩ ∈ st.samples := by
      have h1 := (sortBy_perm (fun a b => decide (a < b)) (calibSlice st)).mem_iff.mp hmem
      exact List.mem_of_mem_drop h1
    have hval : (calibSorted st).get ⟨calibIdx st, hbound⟩ = mkRat 9 10 := hall _ hmem2
    have hcand : calibCandidate st = mkRat 9 10 := by
      unfold calibCandidate
      rw [hgd, hval]
      rw [if_neg (by decide)]
    unfold calibrateIfNeeded
    rw [if_neg hnot]
    simp only [hcand, hts4]
    simp only [Rat.mkRat_eq_div]
    push_cast
    rw [min_eq_right (by norm_num), max_eq_right (by norm_num)]

/-- C3 witness: a concrete full buffer (500 samples of 0.9) on which the
amended theorem applies and yields a recalibrated related threshold of 0.9. -/
theorem C3_witness :
    calibrationWindow ≤ (List.replicate 500 (mkRat 9 10)).length ∧
    (calibrateIfNeeded ⟨List.replicate 500 (mkRat 9 10), mkRat 1 2, mkRat 1 4⟩).related
      = mkRat 9 10 := by
  refine ⟨by decide, ?_⟩
  exact (C3_amended ⟨List.replicate 500 (mkRat 9 10), mkRat 1 2, mkRat 1 4⟩ (by decide)
    (by decide)).2 (by decide) (by decide)

/-- A visit event of the cognitive analyses: the `{domain, title, time}`
records built by `analyze` (analysis.js) and `processHistoryData`
(transition visualizer). -/
structure VisitEvent where
  domain : String
  title : String
  time : ℤ
deriving DecidableEq, Repr

/-- Word tokens of the JS `(s||'').toLowerCase().match(/\b\w+\b/g)`: maximal
runs of word characters, lowercased. -/
def wordTokens (s : String) : List String :=
  ((chSplit (fun c => !isWordChar c) (s.toList.map Char.toLower)).filter
    (fun l => !l.isEmpty)).map (fun l => (⟨l⟩ : String))

/-- Embedding of the title+domain Jaccard used by the session and chain
segmenters (`jaccard` in analysis.js, `jaccardSimilarityTokens` in the
visualizer). -/
def jaccardTokens (a b : String) : ℚ :=
  let sa := (wordTokens a).toFinset
  let sb := (wordTokens b).toFinset
  let inter := sa ∩ sb
  let uni := sa ∪ sb
  if 0 < uni.card then mkRat inter.card uni.card else 0

/-- The shared 5-minute session/chain gap constant. -/
def sessionGapMs : ℤ := 5 * 60 * 1000

/-- Focus-session continuity: gap within 5 minutes AND (same domain OR
title+domain Jaccard above 0.4). -/
def sessionPred (prev e : VisitEvent) : Bool :=
  decide (e.time - prev.time ≤ sessionGapMs) &&
    (decide (prev.domain = e.domain) ||
      decide (mkRat 4 10 < jaccardTokens (prev.title ++ prev.domain) (e.title ++ e.domain)))

/-- Information-chain continuity: gap within 5 minutes AND title+domain Jaccard
above 0.3 (domain equality alone is not sufficient). -/
def chainPred (prev e : VisitEvent) : Bool :=
  decide (e.time - prev.time ≤ sessionGapMs) &&
    decide (mkRat 3 10 < jaccardTokens (prev.title ++ prev.domain) (e.title ++ e.domain))

/-- Sorting of events ascending by timestamp, as every analysis pass does. -/
def sortEvents (events : List VisitEvent) : List VisitEvent :=
  sortBy (fun a b => decide (a.time < b.time)) events

/-- One step of the focus-session loop: start a run on the first event,
extend the current run while the continuity predicate holds, otherwise close
it (sessions keep every closed run, singletons included). -/
def sessionStep (p : VisitEvent → VisitEvent → Bool)
    (st : List (List VisitEvent) × List VisitEvent) (e : VisitEvent) :
    List (List VisitEvent) × List VisitEvent :=
  match st with
  | (acc, []) => (acc, [e])
  | (acc, c :: cs) =>
    let prev := (c :: cs).getLast (by simp)
    if p prev e then (acc, (c :: cs) ++ [e]) else (acc ++ [c :: cs], [e])

/-- One step of the information-chain loop: as `sessionStep`, but a closed run
is only emitted when it has more than one event. -/
def chainStep (p : VisitEvent → VisitEvent → Bool)
    (st : List (List VisitEvent) × List VisitEvent) (e : VisitEvent) :
    List (List VisitEvent) × List VisitEvent :=
  match st with
  | (acc, []) => (acc, [e])
  | (acc, c :: cs) =>
    let prev := (c :: cs).getLast (by simp)
    if p prev e then (acc, (c :: cs) ++ [e])
    else (acc ++ (if 1 < (c :: cs).length then [c :: cs] else []), [e])

/-- State of the focus-session loop after all events are folded. -/
def sessionFoldResult (events : List VisitEvent) : List (List VisitEvent) × List VisitEvent :=
  (sortEvents events).foldl (sessionStep sessionPred) ([], [])

/-- Embedding of `analyzeFocusSessions` (visualizer) and the focus-session loop
of `analyze` (analysis.js): the maximal session runs, in order; the trailing
run is pushed when nonempty. -/
def analyzeFocusSessions (events : List VisitEvent) : List (List VisitEvent) :=
  if (sessionFoldResult events).2.isEmpty then (sessionFoldResult events).1
  else (sessionFoldResult events).1 ++ [(sessionFoldResult events).2]

/-- State of the information-chain loop after all events are folded. -/
def chainFoldResult (events : List VisitEvent) : List (List VisitEvent) × List VisitEvent :=
  (sortEvents events).foldl (chainStep chainPred) ([], [])

/-- Embedding of `detectInformationChains` (visualizer) and the chain loop of
`analyze` (analysis.js): the maximal coherent runs of length greater than 1;
the trailing run is likewise only pushed when longer than 1. -/
def detectInformationChains (events : List VisitEvent) : List (List VisitEvent) :=
  if 1 < (chainFoldResult events).2.length then
    (chainFoldResult events).1 ++ [(chainFoldResult events).2]
  else (chainFoldResult events).1

lemma sessionFold_flatten (p : VisitEvent → VisitEvent → Bool)
    (evts : List VisitEvent) (acc : List (List VisitEvent)) (cur : List VisitEvent) :
    (evts.foldl (sessionStep p) (acc, cur)).1.flatten ++ (evts.foldl (sessionStep p) (acc, cur)).2
      = acc.flatten ++ cur ++ evts := by
  induction evts generalizing acc cur with
  | nil => simp
  | cons e t ih =>
    match cur with
    | [] =>
      simp only [List.foldl_cons, sessionStep]
      rw [ih]
      simp
    | c :: cs =>
      simp only [List.foldl_cons, sessionStep]
      split
      · rw [ih]
        simp
      · rw [ih]
        simp

lemma chainFold_inv (p : VisitEvent → VisitEvent → Bool)
    (evts : List VisitEvent) (acc : List (List VisitEvent)) (cur : List VisitEvent)
    (hacc : ∀ c ∈ acc, 2 ≤ c.length) :
    (∀ c ∈ (evts.foldl (chainStep p) (acc, cur)).1, 2 ≤ c.length) ∧
    ((evts.foldl (chainStep p) (acc, cur)).1.flatten.length
        + (evts.foldl (chainStep p) (acc, cur)).2.length
      ≤ acc.flatten.length + cur.length + evts.length) := by
  induction evts generalizing acc cur with
  | nil => exact ⟨hacc, by simp⟩
  | cons e t ih =>
    match cur with
    | [] =>
      simp only [List.foldl_cons, chainStep]
      have h := ih acc [e] hacc
      have e1 : ([e] : List VisitEvent).length = 1 := rfl
      have e2 : (e :: t).length = t.length + 1 := rfl
      have e3 : ([] : List VisitEvent).length = 0 := rfl
      exact ⟨h.1, by omega⟩
    | c :: cs =>
      simp only [List.foldl_cons, chainStep]
      split
      · have h := ih acc ((c :: cs) ++ [e]) hacc
        have e1 : ((c :: cs) ++ [e]).length = (c :: cs).length + 1 := by simp
        have e2 : (e :: t).length = t.length + 1 := rfl
        exact ⟨h.1, by omega⟩
      · split
        · next hkeep =>
          have hacc2 : ∀ d ∈ acc ++ [c :: cs], 2 ≤ d.length := by
            intro d hd
            rcases List.mem_append.mp hd with h1 | h1
            · exact hacc d h1
            · rw [List.mem_singleton.mp h1]
              omega
          have h := ih (acc ++ [c :: cs]) [e] hacc2
          have hlen : (acc ++ [c :: cs]).flatten.length
              = acc.flatten.length + (c :: cs).length := by
            simp
          have e1 : ([e] : List VisitEvent).length = 1 := rfl
          have e2 : (e :: t).length = t.length + 1 := rfl
          exact ⟨h.1, by omega⟩
        · rw [List.append_nil]
          have h := ih acc [e] hacc
          have e1 : ([e] : List VisitEvent).length = 1 := rfl
          have e2 : (e :: t).length = t.length + 1 := rfl
          have e3 : (c :: cs).length = cs.length + 1 := rfl
          exact ⟨h.1, by omega⟩

/-- C4: over any visit log, the focus sessions partition the events exactly —
the page counts of the emitted sessions sum to the number of input events —
while every emitted information chain has at least 2 events and the chain
lengths sum to at most the number of input events. -/
theorem C4_sessions_partition_chains_bounded (events : List VisitEvent) :
    ((analyzeFocusSessions events).map List.length).sum = events.length ∧
    (∀ c ∈ detectInformationChains events, 2 ≤ c.length) ∧
    ((detectInformationChains events).map List.length).sum ≤ events.length := by
  have hsort : (sortEvents events).length = events.length := sortBy_length _ _
  have hflat : (sessionFoldResult events).1.flatten ++ (sessionFoldResult events).2
      = sortEvents events := by
    unfold sessionFoldResult
    simpa using sessionFold_flatten sessionPred (sortEvents events) [] []
  have hchain : (∀ c ∈ (chainFoldResult events).1, 2 ≤ c.length) ∧
      ((chainFoldResult events).1.flatten.length + (chainFoldResult events).2.length
        ≤ (sortEvents events).length) := by
    unfold chainFoldResult
    simpa using chainFold_inv chainPred (sortEvents events) [] [] (by simp)
  refine ⟨?_, ?_, ?_⟩
  · unfold analyzeFocusSessions
    split
    · next hempty =>
      rw [← List.length_flatten]
      rw [List.isEmpty_iff] at hempty
      rw [hempty, List.append_nil] at hflat
      rw [hflat, hsort]
    · rw [← List.length_flatten]
      simp only [List.flatten_append, List.flatten_cons, List.flatten_nil, List.append_nil]
      rw [hflat, hsort]
  · unfold detectInformationChains
    intro c hc
    split at hc
    · next hlong =>
      rcases List.mem_append.mp hc with h1 | h1
      · exact hchain.1 c h1
      · rw [List.mem_singleton.mp h1]
        omega
    · exact hchain.1 c hc
  · unfold detectInformationChains
    rw [← List.length_flatten]
    split
    · simp only [List.flatten_append, List.flatten_cons, List.flatten_nil, List.append_nil,
        List.length_append]
      calc (chainFoldResult events).1.flatten.length + (chainFoldResult events).2.length
          ≤ (sortEvents events).length := hchain.2
        _ = events.length := hsort
    · calc (chainFoldResult events).1.flatten.length
          ≤ (chainFoldResult events).1.flatten.length + (chainFoldResult events).2.length := by
            omega
        _ ≤ (sortEvents events).length := hchain.2
        _ = events.length := hsort

/-- C4 witness: a concrete two-event log on which the sessions partition the
input, the single emitted chain is the membership-checked two-event run, and
the chain-length bound holds. -/
theorem C4_witness :
    ((analyzeFocusSessions
        [⟨"github.com", "hello world", 0⟩, ⟨"github.com", "hello world", 60000⟩]).map
      List.length).sum = 2 ∧
    2 ≤ ([(⟨"github.com", "hello world", 0⟩ : VisitEvent),
          ⟨"github.com", "hello world", 60000⟩]).length ∧
    ((detectInformationChains
        [⟨"github.com", "hello world", 0⟩, ⟨"github.com", "hello world", 60000⟩]).map
      List.length).sum ≤ 2 := by
  have h := C4_sessions_partition_chains_bounded
    [⟨"github.com", "hello world", 0⟩, ⟨"github.com", "hello world", 60000⟩]
  exact ⟨h.1, h.2.1 _ (by decide), h.2.2⟩

/-- Model of the JS `new Date(t).getHours()` for the nonnegative epoch-ms
timestamps the pipeline handles, in UTC (the claims do not depend on the
timezone offset): hour-of-day `0..23`. -/
def hourOf (t : ℤ) : ℕ :=
  t.toNat / 3600000 % 24

/-- One `hourlyActivity[h]++` step. -/
def bumpHour (l : List ℕ) (h : ℕ) : List ℕ :=
  l.set h (l.getD h 0 + 1)

/-- The 24-slot hourly visit histogram, as built by both `analyze`
(analysis.js) and `analyzeTemporalPatterns` (visualizer). -/
def hourlyActivity (events : List VisitEvent) : List ℕ :=
  (sortEvents events).foldl (fun acc e => bumpHour acc (hourOf e.time)) (List.replicate 24 0)

/-- The synthetic per-minute activity series of `analyzeTemporalPatterns`:
each hour's count spread evenly (count/60) over its 60 minutes. -/
def minuteSeries (events : List VisitEvent) : List ℚ :=
  (List.range 24).flatMap
    (fun h => List.replicate 60 (mkRat ((hourlyActivity events).getD h 0) 60))

/-- Embedding of the inner `autocorr` of `analyzeTemporalPatterns`: `0` when
fewer than `lag + 2` samples, else the lag-`lag` autocovariance over the full
series variance (`0` when that denominator is zero). -/
def autocorr (series : List ℚ) (lag : ℕ) : ℚ :=
  if ((series.length : ℤ) - lag) ≤ 1 then 0
  else
    let mean := series.sum / (series.length : ℚ)
    let num := ((List.range (series.length - lag)).map
      (fun i => (series.getD i 0 - mean) * (series.getD (i + lag) 0 - mean))).sum
    let den := ((List.range series.length).map (fun i => (series.getD i 0 - mean) ^ 2)).sum
    if den = 0 then 0 else num / den

/-- The lags tested by the rhythm loop: 90 to 120 minutes in 5-minute steps. -/
def testedLags : List ℕ :=
  [90, 95, 100, 105, 110, 115, 120]

/-- One iteration of the best-lag loop: update `(bestLag, bestR)` when the
current autocorrelation strictly improves (`bestR` starts at `-Infinity`,
modelled by `none`). -/
def argStep (f : ℕ → ℚ) (st : Option ℕ × Option ℚ) (lag : ℕ) : Option ℕ × Option ℚ :=
  let r := f lag
  let improves :=
    match st.2 with
    | none => true
    | some br => decide (br < r)
  if improves then (some lag, some r) else st

/-- The best-lag loop of `analyzeTemporalPatterns` over the tested lags. -/
def rhythmLoop (series : List ℚ) : Option ℕ × Option ℚ :=
  testedLags.foldl (argStep (fun lag => autocorr series lag)) (none, none)

/-- Embedding of the `rhythmPeriod: bestLag || null` result of
`analyzeTemporalPatterns`. -/
def rhythmPeriod (events : List VisitEvent) : Option ℕ :=
  match (rhythmLoop (minuteSeries events)).1 with
  | none => none
  | some l => if l = 0 then none else some l

lemma argFold_some (f : ℕ → ℚ) (lags : List ℕ) (l0 : ℕ) :
    ∃ l, (lags.foldl (argStep f) (some l0, some (f l0))).1 = some l ∧
      (lags.foldl (argStep f) (some l0, some (f l0))).2 = some (f l) ∧
      (l = l0 ∨ l ∈ lags) ∧ f l0 ≤ f l ∧ ∀ lag ∈ lags, f lag ≤ f l := by
  induction lags generalizing l0 with
  | nil => exact ⟨l0, rfl, rfl, Or.inl rfl, le_refl _, by simp⟩
  | cons a t ih =>
    simp only [List.foldl_cons, argStep]
    by_cases hlt : f l0 < f a
    · rw [if_pos (by simp [hlt])]
      obtain ⟨l, h1, h2, h3, h4, h5⟩ := ih a
      refine ⟨l, h1, h2, ?_, le_of_lt (lt_of_lt_of_le hlt h4), ?_⟩
      · rcases h3 with h | h
        · exact Or.inr (by simp [h])
        · exact Or.inr (by simp [h])
      · intro lag hlag
        rcases List.mem_cons.mp hlag with rfl | h
        · exact h4
        · exact h5 lag h
    · rw [if_neg (by simp [hlt])]
      obtain ⟨l, h1, h2, h3, h4, h5⟩ := ih l0
      refine ⟨l, h1, h2, ?_, h4, ?_⟩
      · rcases h3 with h | h
        · exact Or.inl h
        · exact Or.inr (by simp [h])
      · intro lag hlag
        rcases List.mem_cons.mp hlag with rfl | h
        · exact le_trans (le_of_not_lt hlt) h4
        · exact h5 lag h

lemma rhythmLoop_spec (f : ℕ → ℚ) :
    ∃ l ∈ testedLags, (testedLags.foldl (argStep f) (none, none)).1 = some l ∧
      ∀ lag ∈ testedLags, f lag ≤ f l := by
  have h1 : testedLags.foldl (argStep f) (none, none)
      = [95, 100, 105, 110, 115, 120].foldl (argStep f) (some 90, some (f 90)) := rfl
  obtain ⟨l, hl1, _, h3, h4, h5⟩ := argFold_some f [95, 100, 105, 110, 115, 120] 90
  have hmem : l ∈ testedLags := by
    rcases h3 with rfl | h
    · decide
    · unfold testedLags
      simp only [List.mem_cons] at h ⊢
      tauto
  refine ⟨l, hmem, by rw [h1]; exact hl1, ?_⟩
  intro lag hlag
  unfold testedLags at hlag
  rcases List.mem_cons.mp hlag with rfl | h
  · exact h4
  · exact h5 lag h

/-- C5: for every input event list, the synthetic per-minute series has
exactly 1440 samples — at least two lags' worth at every tested lag, so the
degenerate (null) case never arises — and `rhythmPeriod` is a tested lag
(90..120, step 5) whose autocorrelation is maximal among the tested lags. -/
theorem C5_rhythm_argmax (events : List VisitEvent) :
    (minuteSeries events).length = 1440 ∧
    (∀ lag ∈ testedLags, 2 * lag ≤ (minuteSeries events).length) ∧
    ∃ l ∈ testedLags, rhythmPeriod events = some l ∧
      ∀ lag ∈ testedLags, autocorr (minuteSeries events) lag
        ≤ autocorr (minuteSeries events) l := by
  have hlen : (minuteSeries events).length = 1440 := by
    unfold minuteSeries
    rw [List.length_flatMap]
    simp only [Function.comp_def, List.length_replicate]
    decide
  refine ⟨hlen, ?_, ?_⟩
  · intro lag hlag
    rw [hlen]
    fin_cases hlag <;> omega
  · obtain ⟨l, hmem, h1, h5⟩ := rhythmLoop_spec (fun lag => autocorr (minuteSeries events) lag)
    have hne : l ≠ 0 := by
      unfold testedLags at hmem
      fin_cases hmem <;> decide
    refine ⟨l, hmem, ?_, h5⟩
    unfold rhythmPeriod
    rw [show rhythmLoop (minuteSeries events)
        = testedLags.foldl (argStep (fun lag => autocorr (minuteSeries events) lag)) (none, none)
      from rfl]
    rw [h1]
    simp [hne]

/-- C5 witness: on the empty log the series still has 1440 samples and the
reported rhythm period is a tested lag whose autocorrelation is at least that
of lag 90. -/
theorem C5_witness :
    (minuteSeries ([] : List VisitEvent)).length = 1440 ∧
    ∃ l ∈ testedLags, rhythmPeriod ([] : List VisitEvent) = some l ∧
      autocorr (minuteSeries ([] : List VisitEvent)) 90
        ≤ autocorr (minuteSeries ([] : List VisitEvent)) l := by
  obtain ⟨hl, _, l, hmem, hper, hmax⟩ := C5_rhythm_argmax []
  exact ⟨hl, l, hmem, hper, hmax 90 (by decide)⟩

/-- Embedding of `extractDomain`: hostname without the first `www.`, or the
raw string when the URL does not parse. -/
def extractDomain (url : String) : String :=
  match parseUrl url with
  | some u => stripWww u.hostname
  | none => url

/-- The `FILTERED_DOMAINS` search-engine list. -/
def filteredDomains : List String :=
  ["google.com", "www.google.com", "bing.com", "duckduckgo.com"]

/-- The filtered, chronologically sorted history of `processHistoryData` and
both fallbacks. -/
def sortedHistory (items : List Item) : List Item :=
  sortBy (fun a b => decide (a.time < b.time))
    (items.filter (fun it => !(filteredDomains.any (fun d => strIncl (extractDomain it.url) d))))

/-- The consecutive pairs `(sortedHistory[i], sortedHistory[i+1])` the
transition loop walks. -/
def consecPairs (l : List Item) : List (Item × Item) :=
  l.zip l.tail

/-- Source domain of a consecutive pair. -/
def pairSrc (p : Item × Item) : String :=
  extractDomain p.1.url

/-- Target domain of a consecutive pair. -/
def pairTgt (p : Item × Item) : String :=
  extractDomain p.2.url

/-- The JS map keys (`currentDomain + "-" + nextDomain`) of the cross-domain
pairs, in order and with multiplicity; same-domain pairs contribute nothing. -/
def keysOfPairs (pairs : List (Item × Item)) : List String :=
  pairs.filterMap
    (fun p => if pairSrc p = pairTgt p then none else some (pairSrc p ++ "-" ++ pairTgt p))

/-- A `TransitionEdge` of `processHistoryData` (the `color` field is pure
presentation and not modelled). -/
structure Edge where
  source : String
  target : String
  weight : ℕ
  kind : TransitionType
  lastTime : ℤ
  similarity : ℚ
deriving DecidableEq, Repr

/-- The JS `connectionKey` of an edge. -/
def edgeKey (e : Edge) : String :=
  e.source ++ "-" ++ e.target

/-- Embedding of `calculateBasicSimilarity` (visualizer): 0.2 for a shared
TLD plus 0.8 times the title-word Jaccard, capped at 1. -/
def calculateBasicSimilarity (a b : Item) : ℚ :=
  let aTld := domainTld (extractDomain a.url)
  let bTld := domainTld (extractDomain b.url)
  let base : ℚ := if aTld = bTld then mkRat 2 10 else 0
  let aWords := (wordTokens a.title).toFinset
  let bWords := (wordTokens b.title).toFinset
  let inter := aWords ∩ bWords
  let uni := aWords ∪ bWords
  let sim := if 0 < uni.card then base + mkRat inter.card uni.card * mkRat 8 10 else base
  min 1 sim

/-- Kind and similarity chosen by the `processHistoryData` loop body for one
pair: the pluggable similarity is `some`/`none` for success/throw; on success
the main three-branch time+similarity policy applies, on failure the
basic-similarity fallback with thresholds 0.7/0.3. -/
def stepClass (simFn : Item → Item → Option ℚ) (relT tsT : ℚ) (p : Item × Item) :
    TransitionType × ℚ :=
  match simFn p.1 p.2 with
  | some s => (classifyTransition s (p.2.time - p.1.time) relT tsT, s)
  | none =>
    let s := calculateBasicSimilarity p.1 p.2
    (if mkRat 7 10 ≤ s then .related
     else if mkRat 3 10 ≤ s then .topic_shift
     else .context_switch, s)

/-- The repeat-transition update of `processHistoryData`: `weight++`,
`lastTime` to the later time, `similarity` to a larger nonzero value.  The JS
`Map` holds one entry per key; mapping over all equal-key edges is equivalent
because the keys are unique (proved in `processFold_inv`). -/
def updateConns (conns : List Edge) (k : String) (sim : ℚ) (t : ℤ) : List Edge :=
  conns.map (fun c =>
    if edgeKey c = k then
      { c with
        weight := c.weight + 1
        lastTime := if c.lastTime < t then t else c.lastTime
        similarity := if sim ≠ 0 ∧ c.similarity < sim then sim else c.similarity }
    else c)

/-- The `processHistoryData` transition-loop body: skip same-domain pairs,
then create or update the edge keyed `currentDomain + "-" + nextDomain`. -/
def processStep (simFn : Item → Item → Option ℚ) (relT tsT : ℚ)
    (conns : List Edge) (p : Item × Item) : List Edge :=
  if pairSrc p = pairTgt p then conns
  else if conns.any (fun c => decide (edgeKey c = pairSrc p ++ "-" ++ pairTgt p)) then
    updateConns conns (pairSrc p ++ "-" ++ pairTgt p) (stepClass simFn relT tsT p).2 p.2.time
  else
    conns ++ [⟨pairSrc p, pairTgt p, 1, (stepClass simFn relT tsT p).1, p.2.time,
      (stepClass simFn relT tsT p).2⟩]

/-- Embedding of the transition map built by `processHistoryData` (visualizer),
parameterized by the pluggable similarity (`none` models a throw) and the
configured thresholds. -/
def processConnections (simFn : Item → Item → Option ℚ) (relT tsT : ℚ)
    (items : List Item) : List Edge :=
  (consecPairs (sortedHistory items)).foldl (processStep simFn relT tsT) []

/-- An edge of popup.js's `processHistoryDataFallback` (only source, target,
weight and kind; it records no time or similarity). -/
structure PopupEdge where
  source : String
  target : String
  weight : ℕ
  kind : TransitionType
deriving DecidableEq, Repr

/-- The JS key of a popup-fallback edge. -/
def popupEdgeKey (e : PopupEdge) : String :=
  e.source ++ "-" ++ e.target

/-- The popup-fallback `weight++` on the edge with the given key. -/
def bumpWeight (conns : List PopupEdge) (k : String) : List PopupEdge :=
  conns.map (fun c => if popupEdgeKey c = k then { c with weight := c.weight + 1 } else c)

/-- The loop body of popup.js `processHistoryDataFallback`: only pairs within
the 30-minute window count; a new edge is created only when NEITHER the key
NOR the reverse key exists; otherwise whichever of the two exists has its
weight incremented — a reverse transition is merged into the forward edge. -/
def popupFallbackStep (conns : List PopupEdge) (p : Item × Item) : List PopupEdge :=
  if p.2.time - p.1.time ≤ 30 * 60 * 1000 then
    if pairSrc p = pairTgt p then conns
    else
      if !(conns.any (fun c => decide (popupEdgeKey c = pairSrc p ++ "-" ++ pairTgt p)))
          && !(conns.any (fun c => decide (popupEdgeKey c = pairTgt p ++ "-" ++ pairSrc p))) then
        conns ++ [⟨pairSrc p, pairTgt p, 1,
          if 5 * 60 * 1000 < p.2.time - p.1.time then .topic_shift else .related⟩]
      else if conns.any (fun c => decide (popupEdgeKey c = pairSrc p ++ "-" ++ pairTgt p)) then
        bumpWeight conns (pairSrc p ++ "-" ++ pairTgt p)
      else
        bumpWeight conns (pairTgt p ++ "-" ++ pairSrc p)
  else conns

/-- Embedding of popup.js `processHistoryDataFallback` (its transition links). -/
def processHistoryDataFallbackPopup (items : List Item) : List PopupEdge :=
  (consecPairs (sortedHistory items)).foldl popupFallbackStep []

lemma keysOfPairs_snoc (xs : List (Item × Item)) (p : Item × Item) :
    keysOfPairs (xs ++ [p]) = keysOfPairs xs ++ keysOfPairs [p] := by
  unfold keysOfPairs
  rw [List.filterMap_append]

lemma keysOfPairs_single_same {p : Item × Item} (h : pairSrc p = pairTgt p) :
    keysOfPairs [p] = [] := by
  simp [keysOfPairs, h]

lemma keysOfPairs_single_ne {p : Item × Item} (h : ¬ pairSrc p = pairTgt p) :
    keysOfPairs [p] = [pairSrc p ++ "-" ++ pairTgt p] := by
  simp [keysOfPairs, h]

lemma updateConns_map_key (conns : List Edge) (k : String) (sim : ℚ) (t : ℤ) :
    (updateConns conns k sim t).map edgeKey = conns.map edgeKey := by
  unfold updateConns
  rw [List.map_map]
  refine List.map_congr_left ?_
  intro c _
  by_cases h : edgeKey c = k
  · simp only [Function.comp_apply, if_pos h]
    simp [edgeKey]
  · simp only [Function.comp_apply, if_neg h]

lemma processFold_inv (simFn : Item → Item → Option ℚ) (relT tsT : ℚ)
    (pairs : List (Item × Item)) :
    ∀ (prev : List (Item × Item)) (conns : List Edge),
    (conns.map edgeKey).Nodup →
    (∀ e ∈ conns, e.weight = (keysOfPairs prev).count (edgeKey e)) →
    (∀ k, k ∈ keysOfPairs prev → ∃ e ∈ conns, edgeKey e = k) →
    (∀ e ∈ conns, ∃ p ∈ prev, pairSrc p ≠ pairTgt p ∧ e.source = pairSrc p ∧
        e.target = pairTgt p ∧ e.kind = (stepClass simFn relT tsT p).1) →
    (((pairs.foldl (processStep simFn relT tsT) conns).map edgeKey).Nodup ∧
     (∀ e ∈ pairs.foldl (processStep simFn relT tsT) conns,
        e.weight = (keysOfPairs (prev ++ pairs)).count (edgeKey e)) ∧
     (∀ k, k ∈ keysOfPairs (prev ++ pairs) →
        ∃ e ∈ pairs.foldl (processStep simFn relT tsT) conns, edgeKey e = k) ∧
     (∀ e ∈ pairs.foldl (processStep simFn relT tsT) conns,
        ∃ p ∈ prev ++ pairs, pairSrc p ≠ pairTgt p ∧ e.source = pairSrc p ∧
          e.target = pairTgt p ∧ e.kind = (stepClass simFn relT tsT p).1)) := by
  induction pairs with
  | nil =>
    intro prev conns h2 h3 h4 h5
    simp only [List.foldl_nil, List.append_nil]
    exact ⟨h2, h3, h4, h5⟩
  | cons p t ih =>
    intro prev conns h2 h3 h4 h5
    rw [List.foldl_cons]
    have hsplit : prev ++ p :: t = (prev ++ [p]) ++ t := by
      rw [List.append_cons]
    rw [hsplit]
    by_cases hsame : pairSrc p = pairTgt p
    · have hstep : processStep simFn relT tsT conns p = conns := by
        unfold processStep
        rw [if_pos hsame]
      rw [hstep]
      have hkp : keysOfPairs (prev ++ [p]) = keysOfPairs prev := by
        rw [keysOfPairs_snoc, keysOfPairs_single_same hsame, List.append_nil]
      refine ih (prev ++ [p]) conns h2 ?_ ?_ ?_
      · intro e he
        rw [hkp]
        exact h3 e he
      · intro k hk
        rw [hkp] at hk
        exact h4 k hk
      · intro e he
        obtain ⟨q, hq, hprops⟩ := h5 e he
        exact ⟨q, List.mem_append_left _ hq, hprops⟩
    · have hkp : keysOfPairs (prev ++ [p])
          = keysOfPairs prev ++ [pairSrc p ++ "-" ++ pairTgt p] := by
        rw [keysOfPairs_snoc, keysOfPairs_single_ne hsame]
      by_cases hex : (conns.any (fun c => decide (edgeKey c = pairSrc p ++ "-" ++ pairTgt p))) = true
      · have hstep : processStep simFn relT tsT conns p
            = updateConns conns (pairSrc p ++ "-" ++ pairTgt p)
                (stepClass simFn relT tsT p).2 p.2.time := by
          unfold processStep
          rw [if_neg hsame, if_pos hex]
        rw [hstep]
        have hkeypres : ∀ c : Edge,
            edgeKey (if edgeKey c = pairSrc p ++ "-" ++ pairTgt p then
              { c with
                weight := c.weight + 1
                lastTime := if c.lastTime < p.2.time then p.2.time else c.lastTime
                similarity := if (stepClass simFn relT tsT p).2 ≠ 0 ∧
                    c.similarity < (stepClass simFn relT tsT p).2 then
                  (stepClass simFn relT tsT p).2 else c.similarity }
              else c) = edgeKey c := by
          intro c
          by_cases h : edgeKey c = pairSrc p ++ "-" ++ pairTgt p
          · rw [if_pos h]
            simp [edgeKey]
          · rw [if_neg h]
        refine ih (prev ++ [p]) _ ?_ ?_ ?_ ?_
        · rw [updateConns_map_key]
          exact h2
        · intro e he
          obtain ⟨c, hc, rfl⟩ := List.mem_map.mp he
          rw [hkeypres c, hkp]
          by_cases hck : edgeKey c = pairSrc p ++ "-" ++ pairTgt p
          · rw [if_pos hck]
            have : (c.weight + 1 : ℕ)
                = (keysOfPairs prev).count (edgeKey c) + 1 := by
              rw [h3 c hc]
            simp only [this, hck]
            simp [List.count_append]
          · rw [if_neg hck]
            rw [h3 c hc]
            simp [List.count_append, List.count_singleton, hck]
        · intro k hk
          rw [hkp] at hk
          rcases List.mem_append.mp hk with hk1 | hk1
          · obtain ⟨e, he, hke⟩ := h4 k hk1
            refine ⟨_, List.mem_map_of_mem _ he, ?_⟩
            rw [hkeypres e]
            exact hke
          · rw [List.mem_singleton.mp hk1]
            rw [List.any_eq_true] at hex
            obtain ⟨c, hc, hck⟩ := hex
            rw [decide_eq_true_eq] at hck
            refine ⟨_, List.mem_map_of_mem _ hc, ?_⟩
            rw [hkeypres c]
            exact hck
        · intro e he
          obtain ⟨c, hc, rfl⟩ := List.mem_map.mp he
          obtain ⟨q, hq, hd, hs, ht, hkind⟩ := h5 c hc
          refine ⟨q, List.mem_append_left _ hq, hd, ?_, ?_, ?_⟩ <;>
            · by_cases hck : edgeKey c = pairSrc p ++ "-" ++ pairTgt p <;>
                simp [hck, hs, ht, hkind]
      · have hstep : processStep simFn relT tsT conns p
            = conns ++ [⟨pairSrc p, pairTgt p, 1, (stepClass simFn relT tsT p).1, p.2.time,
                (stepClass simFn relT tsT p).2⟩] := by
          unfold processStep
          rw [if_neg hsame, if_neg hex]
        rw [hstep]
        have hnotin : ∀ c ∈ conns, ¬ edgeKey c = pairSrc p ++ "-" ++ pairTgt p := by
          intro c hc hck
          exact hex (List.any_eq_true.mpr ⟨c, hc, decide_eq_true hck⟩)
        have hknotmem : (pairSrc p ++ "-" ++ pairTgt p) ∉ keysOfPairs prev := by
          intro hmem
          obtain ⟨e, he, hke⟩ := h4 _ hmem
          exact hnotin e he hke
        have hnewkey : edgeKey ⟨pairSrc p, pairTgt p, 1, (stepClass simFn relT tsT p).1,
            p.2.time, (stepClass simFn relT tsT p).2⟩ = pairSrc p ++ "-" ++ pairTgt p := rfl
        refine ih (prev ++ [p]) _ ?_ ?_ ?_ ?_
        · rw [List.map_append]
          rw [List.nodup_append]
          refine ⟨h2, by simp, ?_⟩
          intro k hk1 hk2
          obtain ⟨c, hc, rfl⟩ := List.mem_map.mp hk1
          simp only [List.map_cons, List.map_nil, List.mem_singleton] at hk2
          rw [hnewkey] at hk2
          exact hnotin c hc hk2
        · intro e he
          rw [hkp]
          rcases List.mem_append.mp he with he1 | he1
          · rw [h3 e he1]
            simp [List.count_append, List.count_singleton, hnotin e he1]
          · rw [List.mem_singleton.mp he1]
            rw [hnewkey]
            have hz : (keysOfPairs prev).count (pairSrc p ++ "-" ++ pairTgt p) = 0 :=
              List.count_eq_zero.mpr hknotmem
            simp [List.count_append, hz]
        · intro k hk
          rw [hkp] at hk
          rcases List.mem_append.mp hk with hk1 | hk1
          · obtain ⟨e, he, hke⟩ := h4 k hk1
            exact ⟨e, List.mem_append_left _ he, hke⟩
          · rw [List.mem_singleton.mp hk1]
            exact ⟨_, List.mem_append_right _ (List.mem_singleton_self _), hnewkey⟩
        · intro e he
          rcases List.mem_append.mp he with he1 | he1
          · obtain ⟨q, hq, hprops⟩ := h5 e he1
            exact ⟨q, List.mem_append_left _ hq, hprops⟩
          · rw [List.mem_singleton.mp he1]
            exact ⟨p, List.mem_append_right _ (List.mem_singleton_self _), hsame, rfl, rfl, rfl⟩

lemma processConnections_spec (simFn : Item → Item → Option ℚ) (relT tsT : ℚ)
    (items : List Item) :
    (((processConnections simFn relT tsT items).map edgeKey).Nodup ∧
     (∀ e ∈ processConnections simFn relT tsT items,
        e.weight = (keysOfPairs (consecPairs (sortedHistory items))).count (edgeKey e)) ∧
     (∀ k, k ∈ keysOfPairs (consecPairs (sortedHistory items)) →
        ∃ e ∈ processConnections simFn relT tsT items, edgeKey e = k) ∧
     (∀ e ∈ processConnections simFn relT tsT items,
        ∃ p ∈ consecPairs (sortedHistory items), pairSrc p ≠ pairTgt p ∧
          e.source = pairSrc p ∧ e.target = pairTgt p ∧
          e.kind = (stepClass simFn relT tsT p).1)) := by
  have h := processFold_inv simFn relT tsT (consecPairs (sortedHistory items)) [] []
    (by simp) (by simp) (by simp [keysOfPairs]) (by simp)
  simpa [processConnections] using h

lemma popupFold_src_ne (pairs : List (Item × Item)) :
    ∀ (conns : List PopupEdge), (∀ e ∈ conns, e.source ≠ e.target) →
      ∀ e ∈ pairs.foldl popupFallbackStep conns, e.source ≠ e.target := by
  induction pairs with
  | nil =>
    intro conns h e he
    exact h e he
  | cons p t ih =>
    intro conns h
    rw [List.foldl_cons]
    refine ih _ ?_
    intro e he
    unfold popupFallbackStep at he
    split at he
    · split at he
      · exact h e he
      · next hsame =>
        split at he
        · rcases List.mem_append.mp he with h1 | h1
          · exact h e h1
          · rw [List.mem_singleton.mp h1]
            exact hsame
        · split at he
          · unfold bumpWeight at he
            obtain ⟨c, hc, rfl⟩ := List.mem_map.mp he
            split <;> exact h c hc
          · unfold bumpWeight at he
            obtain ⟨c, hc, rfl⟩ := List.mem_map.mp he
            split <;> exact h c hc
    · exact h e he

lemma noDash_append_inj : ∀ (xs ys zs ws : List Char),
    ('-' : Char) ∉ xs → ('-' : Char) ∉ zs →
    xs ++ '-' :: ys = zs ++ '-' :: ws → xs = zs ∧ ys = ws := by
  intro xs
  induction xs with
  | nil =>
    intro ys zs ws _ hz h
    cases zs with
    | nil => simpa using h
    | cons z zt =>
      simp only [List.nil_append, List.cons_append, List.cons.injEq] at h
      exact absurd (h.1 ▸ List.mem_cons_self z zt) (h.1 ▸ hz)
  | cons x xt ih =>
    intro ys zs ws hx hz h
    cases zs with
    | nil =>
      simp only [List.cons_append, List.nil_append, List.cons.injEq] at h
      exact absurd (h.1 ▸ List.mem_cons_self x xt) (h.1 ▸ hx)
    | cons z zt =>
      simp only [List.cons_append, List.cons.injEq] at h
      obtain ⟨rfl, h2⟩ := h
      obtain ⟨h3, h4⟩ := ih ys zt ws (fun hm => hx (List.mem_cons_of_mem _ hm))
        (fun hm => hz (List.mem_cons_of_mem _ hm)) h2
      exact ⟨by rw [h3], h4⟩

lemma dashKey_inj (a b c d : String) (ha : ('-' : Char) ∉ a.data) (hc : ('-' : Char) ∉ c.data)
    (h : a ++ "-" ++ b = c ++ "-" ++ d) : a = c ∧ b = d := by
  have hdata : a.data ++ '-' :: b.data = c.data ++ '-' :: d.data := by
    have h2 := congrArg String.data h
    rw [String.data_append, String.data_append, String.data_append, String.data_append] at h2
    simpa using h2
  obtain ⟨h1, h2⟩ := noDash_append_inj a.data b.data c.data d.data ha hc hdata
  constructor
  · cases a
    cases c
    simp_all
  · cases b
    cases d
    simp_all

/-- A three-item demo log (x → y → x on distinct hyphen-free domains), used by
the witnesses and the counterexample below. -/
def demoItems : List Item :=
  [⟨"https://x.com", "", 0⟩, ⟨"https://y.com", "", 60000⟩, ⟨"https://x.com", "", 120000⟩]

/-- C7 counterexample: on the x → y → x demo log, popup.js's
`processHistoryDataFallback` (cited by the claim) merges the reverse
transition y → x into the existing x → y edge: both directions occur among
the consecutive cross-domain transitions, yet a single edge of weight 2 comes
out — transitions a→b and b→a are NOT accumulated as two distinct edges
there. -/
theorem C7_counterexample :
    processHistoryDataFallbackPopup demoItems
      = [⟨"x.com", "y.com", 2, .related⟩] ∧
    keysOfPairs (consecPairs (sortedHistory demoItems))
      = ["x.com-y.com", "y.com-x.com"] := by
  constructor <;> decide

/-- C7 amended: in `processHistoryData` every edge satisfies
`source ≠ target`, edges are keyed by the JS string `source + "-" + target`
(keys are unique, each edge's weight counts exactly the consecutive
transitions carrying its key, and a key has an edge exactly when it occurs),
and that key encoding is injective on hyphen-free domains — so there a→b and
b→a accumulate as two distinct edges; popup.js's fallback still guarantees
`source ≠ target`, but merges reverse transitions (see the counterexample). -/
theorem C7_amended (simFn : Item → Item → Option ℚ) (relT tsT : ℚ) (items : List Item) :
    (∀ e ∈ processConnections simFn relT tsT items, e.source ≠ e.target) ∧
    ((processConnections simFn relT tsT items).map edgeKey).Nodup ∧
    (∀ e ∈ processConnections simFn relT tsT items,
      e.weight = (keysOfPairs (consecPairs (sortedHistory items))).count (edgeKey e)) ∧
    (∀ k, k ∈ keysOfPairs (consecPairs (sortedHistory items)) ↔
      ∃ e ∈ processConnections simFn relT tsT items, edgeKey e = k) ∧
    (∀ e ∈ processHistoryDataFallbackPopup items, e.source ≠ e.target) ∧
    (∀ a b c d : String, ('-' : Char) ∉ a.data → ('-' : Char) ∉ c.data →
      a ++ "-" ++ b = c ++ "-" ++ d → a = c ∧ b = d) := by
  obtain ⟨h2, h3, h4, h5⟩ := processConnections_spec simFn relT tsT items
  refine ⟨?_, h2, h3, ?_, ?_, dashKey_inj⟩
  · intro e he
    obtain ⟨p, _, hd, hs, ht, _⟩ := h5 e he
    rw [hs, ht]
    exact hd
  · intro k
    constructor
    · exact h4 k
    · rintro ⟨e, he, rfl⟩
      obtain ⟨p, hp, hd, hs, ht, _⟩ := h5 e he
      unfold keysOfPairs
      rw [List.mem_filterMap]
      exact ⟨p, hp, by rw [if_neg hd, edgeKey, hs, ht]⟩
  · intro e he
    exact popupFold_src_ne (consecPairs (sortedHistory items)) [] (by simp) e he

/-- C7 witness: on the x → y → x demo log the main pipeline keeps two
distinct directed edges; the concrete x→y edge has distinct endpoints and
weight 1, the count of its key among the transitions; and the key of the
concrete popup edge also has distinct endpoints. -/
theorem C7_witness :
    ((⟨"x.com", "y.com", 1, .context_switch, 60000, mkRat 2 10⟩ : Edge).source
      ≠ (⟨"x.com", "y.com", 1, .context_switch, 60000, mkRat 2 10⟩ : Edge).target) ∧
    (⟨"x.com", "y.com", 1, .context_switch, 60000, mkRat 2 10⟩ : Edge).weight
      = (keysOfPairs (consecPairs (sortedHistory demoItems))).count
          (edgeKey ⟨"x.com", "y.com", 1, .context_switch, 60000, mkRat 2 10⟩) ∧
    (∃ e ∈ processConnections (fun _ _ => none) (mkRat 1 2) (mkRat 1 4) demoItems,
      edgeKey e = "y.com-x.com") ∧
    ((⟨"x.com", "y.com", 2, .related⟩ : PopupEdge).source
      ≠ (⟨"x.com", "y.com", 2, .related⟩ : PopupEdge).target) ∧
    ("a" = "a" ∧ "b" = "b") := by
  have h := C7_amended (fun _ _ => none) (mkRat 1 2) (mkRat 1 4) demoItems
  refine ⟨h.1 _ (by decide), h.2.2.1 _ (by decide), ?_, ?_, ?_⟩
  · exact (h.2.2.2.1 "y.com-x.com").mp (by decide)
  · exact h.2.2.2.2.1 _ (by decide)
  · exact h.2.2.2.2.2 "a" "b" "a" "b" (by decide) (by decide) rfl

/-- C6: when the pluggable similarity computation throws (modelled by the
`none` backend), the transition pipeline still emits an edge for every
consecutive cross-domain transition (same key characterization as with any
working backend), and each edge was classified by the three-branch fallback
policy over `calculateBasicSimilarity` with the fallback thresholds 0.7 and
0.3; the basic fallback similarity itself always lies in [0,1]. -/
theorem C6_fallback_classification (relT tsT : ℚ) (items : List Item) :
    (∀ a b : Item, 0 ≤ calculateBasicSimilarity a b ∧ calculateBasicSimilarity a b ≤ 1) ∧
    (∀ k, k ∈ keysOfPairs (consecPairs (sortedHistory items)) →
      ∃ e ∈ processConnections (fun _ _ => none) relT tsT items, edgeKey e = k) ∧
    (∀ e ∈ processConnections (fun _ _ => none) relT tsT items,
      ∃ p ∈ consecPairs (sortedHistory items),
        pairSrc p ≠ pairTgt p ∧ e.source = pairSrc p ∧ e.target = pairTgt p ∧
        e.kind = (if mkRat 7 10 ≤ calculateBasicSimilarity p.1 p.2 then .related
                  else if mkRat 3 10 ≤ calculateBasicSimilarity p.1 p.2 then .topic_shift
                  else .context_switch)) := by
  obtain ⟨_, _, h4, h5⟩ := processConnections_spec (fun _ _ => none) relT tsT items
  refine ⟨?_, h4, ?_⟩
  · intro a b
    constructor
    · unfold calculateBasicSimilarity
      dsimp only
      refine le_min (by norm_num) ?_
      have hj : (0 : ℚ) ≤ mkRat ((wordTokens a.title).toFinset ∩ (wordTokens b.title).toFinset).card
          ((wordTokens a.title).toFinset ∪ (wordTokens b.title).toFinset).card
          * mkRat 8 10 := by
        rw [Rat.mkRat_eq_div, Rat.mkRat_eq_div]
        positivity
      have hb : (0 : ℚ) ≤ (if domainTld (extractDomain a.url) = domainTld (extractDomain b.url)
          then mkRat 2 10 else 0) := by
        split_ifs
        · rw [Rat.mkRat_eq_div]
          norm_num
        · exact le_refl 0
      by_cases hcard :
          0 < ((wordTokens a.title).toFinset ∪ (wordTokens b.title).toFinset).card
      · rw [if_pos hcard]
        linarith
      · rw [if_neg hcard]
        exact hb
    · exact min_le_left _ _
  · intro e he
    obtain ⟨p, hp, hd, hs, ht, hk⟩ := h5 e he
    exact ⟨p, hp, hd, hs, ht, hk⟩

/-- C6 witness: on the demo log with an always-throwing backend, the concrete
x→y edge is present and the theorem produces its creating transition,
classified `context_switch` by the fallback thresholds (its basic similarity
is 0.2, below 0.3). -/
theorem C6_witness :
    (0 ≤ calculateBasicSimilarity ⟨"https://x.com", "", 0⟩ ⟨"https://y.com", "", 60000⟩ ∧
      calculateBasicSimilarity ⟨"https://x.com", "", 0⟩ ⟨"https://y.com", "", 60000⟩ ≤ 1) ∧
    (∃ e ∈ processConnections (fun _ _ => none) (mkRat 1 2) (mkRat 1 4) demoItems,
      edgeKey e = "x.com-y.com") ∧
    (∃ p ∈ consecPairs (sortedHistory demoItems),
      pairSrc p ≠ pairTgt p ∧
      (⟨"x.com", "y.com", 1, .context_switch, 60000, mkRat 2 10⟩ : Edge).source = pairSrc p ∧
      (⟨"x.com", "y.com", 1, .context_switch, 60000, mkRat 2 10⟩ : Edge).target = pairTgt p ∧
      (⟨"x.com", "y.com", 1, .context_switch, 60000, mkRat 2 10⟩ : Edge).kind
        = (if mkRat 7 10 ≤ calculateBasicSimilarity p.1 p.2 then .related
           else if mkRat 3 10 ≤ calculateBasicSimilarity p.1 p.2 then .topic_shift
           else .context_switch)) := by
  have h := C6_fallback_classification (mkRat 1 2) (mkRat 1 4) demoItems
  refine ⟨h.1 _ _, h.2.1 "x.com-y.com" (by decide), ?_⟩
  exact h.2.2 _ (by decide)

/-- The peak-hour cutoff of `analyze` / `analyzeTemporalPatterns`: the value
at index `Math.floor(0.75 * 24)` of the ascending-sorted hourly counts (an
out-of-range or falsy access yields 0). -/
def peakThreshold (events : List VisitEvent) : ℕ :=
  (sortBy (fun a b => decide (a < b)) (hourlyActivity events)).getD
    ((sortBy (fun a b => decide (a < b)) (hourlyActivity events)).length * 3 / 4) 0

/-- The peak hours of `analyze` / `analyzeTemporalPatterns`: hours whose count
reaches the cutoff and is positive. -/
def peakHours (events : List VisitEvent) : List ℕ :=
  ((hourlyActivity events).enum.filter
    (fun ci => decide (peakThreshold events ≤ ci.2) && decide (0 < ci.2))).map
    (fun ci => ci.1)

lemma hourOf_lt (t : ℤ) : hourOf t < 24 :=
  Nat.mod_lt _ (by norm_num)

lemma bumpHour_length (l : List ℕ) (h : ℕ) : (bumpHour l h).length = l.length := by
  simp [bumpHour]

lemma bumpHour_sum : ∀ (l : List ℕ) (h : ℕ), h < l.length → (bumpHour l h).sum = l.sum + 1 := by
  intro l
  induction l with
  | nil =>
    intro h hh
    simp at hh
  | cons x t ih =>
    intro h hh
    cases h with
    | zero =>
      simp only [bumpHour, List.getD_cons_zero, List.set_cons_zero, List.sum_cons]
      omega
    | succ n =>
      have hn : n < t.length := by simpa using hh
      have := ih n hn
      simp only [bumpHour, List.getD_cons_succ, List.set_cons_succ, List.sum_cons] at this ⊢
      omega

lemma hourlyFold_spec (evts : List VisitEvent) :
    ∀ (l : List ℕ), l.length = 24 →
      (evts.foldl (fun acc e => bumpHour acc (hourOf e.time)) l).length = 24 ∧
      (evts.foldl (fun acc e => bumpHour acc (hourOf e.time)) l).sum = l.sum + evts.length := by
  induction evts with
  | nil =>
    intro l hl
    simpa using hl
  | cons e t ih =>
    intro l hl
    rw [List.foldl_cons]
    have hlen : (bumpHour l (hourOf e.time)).length = 24 := by
      rw [bumpHour_length]
      exact hl
    have hsum : (bumpHour l (hourOf e.time)).sum = l.sum + 1 :=
      bumpHour_sum l _ (by rw [hl]; exact hourOf_lt _)
    obtain ⟨h1, h2⟩ := ih _ hlen
    refine ⟨h1, ?_⟩
    rw [h2, hsum]
    simp only [List.length_cons]
    omega

lemma hourlyActivity_length (events : List VisitEvent) :
    (hourlyActivity events).length = 24 :=
  (hourlyFold_spec (sortEvents events) (List.replicate 24 0) (by simp)).1

lemma hourlyActivity_sum (events : List VisitEvent) :
    (hourlyActivity events).sum = events.length := by
  have h := (hourlyFold_spec (sortEvents events) (List.replicate 24 0) (by simp)).2
  unfold hourlyActivity
  rw [h]
  unfold sortEvents
  rw [sortBy_length]
  simp

lemma exists_ge_all (l : List ℕ) (hne : l ≠ []) : ∃ m ∈ l, ∀ x ∈ l, x ≤ m := by
  induction l with
  | nil => cases hne rfl
  | cons a t ih =>
    cases t with
    | nil =>
      refine ⟨a, List.mem_singleton_self a, ?_⟩
      intro x hx
      rw [List.mem_singleton.mp hx]
    | cons b u =>
      obtain ⟨m, hm, hall⟩ := ih (by simp)
      rcases le_total a m with hle | hle
      · refine ⟨m, List.mem_cons_of_mem a hm, ?_⟩
        intro x hx
        rcases List.mem_cons.mp hx with rfl | hx
        · exact hle
        · exact hall x hx
      · refine ⟨a, List.mem_cons_self a _, ?_⟩
        intro x hx
        rcases List.mem_cons.mp hx with rfl | hx
        · exact le_refl x
        · exact le_trans (hall x hx) hle

/-- C10: on a non-empty event list the peak-hours list is never empty: some
hourly count is positive and maximal, the 75th-percentile cutoff is itself
one of the 24 counts so the maximum reaches it, and hence the busiest hour
passes the peak filter. -/
theorem C10_peak_hours_nonempty (events : List VisitEvent) (h : events ≠ []) :
    (∃ m ∈ hourlyActivity events, 0 < m ∧ peakThreshold events ≤ m ∧
      ∀ x ∈ hourlyActivity events, x ≤ m) ∧
    peakHours events ≠ [] := by
  have hlen := hourlyActivity_length events
  have hsum := hourlyActivity_sum events
  have hnil : hourlyActivity events ≠ [] := by
    intro h0
    rw [h0] at hlen
    simp at hlen
  obtain ⟨m, hm, hmax⟩ := exists_ge_all _ hnil
  have hpos : ∃ c ∈ hourlyActivity events, 0 < c := by
    by_contra hc
    push_neg at hc
    have hz : (hourlyActivity events).sum = 0 := by
      rw [List.sum_eq_zero_iff]
      intro x hx
      exact Nat.le_zero.mp (hc x hx)
    rw [hz] at hsum
    exact h (List.eq_nil_of_length_eq_zero hsum.symm)
  obtain ⟨c0, hc0, hc0pos⟩ := hpos
  have hmpos : 0 < m := lt_of_lt_of_le hc0pos (hmax c0 hc0)
  have hslen : (sortBy (fun a b => decide (a < b)) (hourlyActivity events)).length = 24 := by
    rw [sortBy_length]
    exact hlen
  have hidx : (sortBy (fun a b => decide (a < b)) (hourlyActivity events)).length * 3 / 4
      < (sortBy (fun a b => decide (a < b)) (hourlyActivity events)).length := by
    rw [hslen]
    norm_num
  have hthrmem : peakThreshold events ∈ hourlyActivity events := by
    unfold peakThreshold
    rw [List.getD_eq_getElem _ _ hidx]
    exact (sortBy_perm _ _).mem_iff.mp (List.getElem_mem _)
  have hthr : peakThreshold events ≤ m := hmax _ hthrmem
  refine ⟨⟨m, hm, hmpos, hthr, hmax⟩, ?_⟩
  obtain ⟨i, hi, hgm⟩ := List.mem_iff_getElem.mp hm
  have henum : (i, m) ∈ (hourlyActivity events).enum := by
    rw [List.mem_enum_iff_getElem?]
    rw [List.getElem?_eq_getElem hi, hgm]
  have hfil : (i, m) ∈ (hourlyActivity events).enum.filter
      (fun ci => decide (peakThreshold events ≤ ci.2) && decide (0 < ci.2)) := by
    rw [List.mem_filter]
    refine ⟨henum, ?_⟩
    simp [hthr, hmpos]
  have : i ∈ peakHours events := by
    unfold peakHours
    exact List.mem_map.mpr ⟨(i, m), hfil, rfl⟩
  exact List.ne_nil_of_mem this

/-- C10 witness: a single-event log has a non-empty peak-hours list. -/
theorem C10_witness :
    peakHours [(⟨"github.com", "hello", 0⟩ : VisitEvent)] ≠ [] :=
  (C10_peak_hours_nonempty [⟨"github.com", "hello", 0⟩] (by decide)).2

/-- The per-domain complexity prior table of `calculateComplexity`. -/
def complexityBase : List (String × ℚ) :=
  [("github.com", mkRat 7 10), ("stackoverflow.com", mkRat 8 10), ("arxiv.org", mkRat 9 10),
   ("wikipedia.org", mkRat 6 10), ("reddit.com", mkRat 4 10), ("youtube.com", mkRat 3 10)]

/-- Embedding of `calculateComplexity` (analysis.js / visualizer): domain
prior (0.5 for unknown domains), +0.1 per matched deep-work keyword in the
lowercased title, -0.1 per matched shallow keyword, clamped to [0,1]. -/
def calculateComplexity (domain title : String) : ℚ :=
  let base := (complexityBase.lookup domain).getD (mkRat 1 2)
  let lower := strToLower title
  let score := base
    + mkRat 1 10 * ((["documentation", "api", "tutorial", "research"].filter
        (fun k => strIncl lower k)).length : ℚ)
    - mkRat 1 10 * ((["meme", "funny", "social"].filter (fun k => strIncl lower k)).length : ℚ)
  min 1 (max 0 score)

/-- Model of `Number#toFixed(2)` on the nonnegative values produced here:
round half up to 2 decimals. -/
def round2 (q : ℚ) : ℚ :=
  (⌊q * 100 + mkRat 1 2⌋ : ℚ) / 100

/-- A focus-session summary of `analyze` (analysis.js). -/
structure SessionSummary where
  durationMinutes : ℚ
  pages : ℕ
  avgComplexity : ℚ
  events : List VisitEvent

/-- Embedding of the focus-session summary of `analyze` (analysis.js) /
`summarizeSession` (visualizer, which additionally floors a zero duration to
1ms — irrelevant to the claims, the analysis.js variant is modelled). -/
noncomputable def summarizeSession (evts : List VisitEvent) : SessionSummary :=
  { durationMinutes :=
      round2 (((((evts.getLast?).getD ⟨"", "", 0⟩).time
        - ((evts.head?).getD ⟨"", "", 0⟩).time : ℤ) : ℚ) / 60000)
    pages := evts.length
    avgComplexity :=
      round2 (((evts.map (fun v => calculateComplexity v.domain v.title)).sum) / (evts.length : ℚ))
    events := evts }

/-- An information-chain summary of `analyze` (analysis.js). -/
structure ChainSummary where
  length : ℕ
  durationMinutes : ℚ
  avgComplexity : ℚ
  scentStrength : ℚ

/-- Embedding of the chain summary of `analyze` (analysis.js): a zero duration
falls back to 1 minute (`||1`), and scent strength is pages per minute. -/
noncomputable def summarizeChain (evts : List VisitEvent) : ChainSummary :=
  let durRaw : ℚ := ((((evts.getLast?).getD ⟨"", "", 0⟩).time
    - ((evts.head?).getD ⟨"", "", 0⟩).time : ℤ) : ℚ) / 60000
  let dur : ℚ := if durRaw = 0 then 1 else durRaw
  { length := evts.length
    durationMinutes := round2 dur
    avgComplexity :=
      round2 (((evts.map (fun v => calculateComplexity v.domain v.title)).sum) / (evts.length : ℚ))
    scentStrength := round2 ((evts.length : ℚ) / dur) }

/-- One step of the raw-gap session split of `analyze` /
`analyzeTemporalPatterns`: state is (closed session durations, session start,
last time); a gap above 5 minutes closes the current span. -/
def gapStep (st : List ℤ × Option ℤ × Option ℤ) (t : ℤ) : List ℤ × Option ℤ × Option ℤ :=
  if (match st.2.2 with | none => true | some l => decide (sessionGapMs < t - l)) then
    ((match st.2.1, st.2.2 with
      | some s, some l => st.1 ++ [l - s]
      | _, _ => st.1), some t, some t)
  else (st.1, st.2.1, some t)

/-- The raw session durations (ms) of `analyze` / `analyzeTemporalPatterns`,
including the final open span. -/
def sessionDurations (events : List VisitEvent) : List ℤ :=
  match (sortEvents events).foldl (fun st e => gapStep st e.time) ([], none, none) with
  | (sessions, some s, some l) => sessions ++ [l - s]
  | (sessions, _, _) => sessions

/-- One `complexityByHour[h]` accumulation step. -/
def bumpComplexity (acc : List (ℚ × ℕ)) (h : ℕ) (c : ℚ) : List (ℚ × ℕ) :=
  acc.set h ((acc.getD h (0, 0)).1 + c, (acc.getD h (0, 0)).2 + 1)

/-- The per-hour complexity totals of `analyze`: accumulated over the events
of every focus session. -/
def complexityByHour (events : List VisitEvent) : List (ℚ × ℕ) :=
  ((analyzeFocusSessions events).flatten).foldl
    (fun acc e => bumpComplexity acc (hourOf e.time) (calculateComplexity e.domain e.title))
    (List.replicate 24 (0, 0))

/-- The hourly average complexity of `analyze` (0 for hours with no samples). -/
def hourlyComplexity (events : List VisitEvent) : List ℚ :=
  (complexityByHour events).map (fun tc => if tc.2 ≠ 0 then tc.1 / (tc.2 : ℚ) else 0)

/-- The per-domain visit counts of `analyze` (insertion-ordered, as the JS
object keys). -/
def domainCounts (events : List VisitEvent) : List (String × ℕ) :=
  events.foldl
    (fun acc e =>
      if acc.any (fun kv => decide (kv.1 = e.domain)) then
        acc.map (fun kv => if kv.1 = e.domain then (kv.1, kv.2 + 1) else kv)
      else acc ++ [(e.domain, 1)]) []

/-- The `events.length || 1` total of the diversity computation. -/
def diversityTotal (events : List VisitEvent) : ℕ :=
  if events.length = 0 then 1 else events.length

open Classical in
/-- Embedding of the Shannon-entropy information diversity of `analyze` /
`calculateGraphMetrics`: `-Σ p·log2(p)` over the domain distribution, with
zero-probability terms contributing 0. -/
noncomputable def diversity (events : List VisitEvent) : ℝ :=
  -((domainCounts events).foldl
    (fun s kv =>
      s + (if ((kv.2 : ℝ) / (diversityTotal events : ℝ)) = 0 then 0
           else ((kv.2 : ℝ) / (diversityTotal events : ℝ))
             * Real.logb 2 ((kv.2 : ℝ) / (diversityTotal events : ℝ)))) 0)

/-- Model of `Number#toFixed(3)` on the values produced here: round half up
to 3 decimals. -/
noncomputable def round3 (x : ℝ) : ℝ :=
  (⌊x * 1000 + 1/2⌋ : ℝ) / 1000

/-- The analysis report assembled by `analyze` (analysis.js). -/
structure AnalysisReport where
  hourlyComplexity : List ℚ
  peakHours : List ℕ
  avgSessionMinutes : ℚ
  focusSessions : List SessionSummary
  chainSummaries : List ChainSummary
  diversity : ℝ

/-- Embedding of `analyze` (analysis.js): temporal patterns, focus sessions,
hourly complexity, chains and entropy-based diversity over the sorted events. -/
noncomputable def analyze (events : List VisitEvent) : AnalysisReport :=
  { hourlyComplexity := hourlyComplexity events
    peakHours := peakHours events
    avgSessionMinutes :=
      if (sessionDurations events).length ≠ 0 then
        round2 ((((sessionDurations events).sum : ℚ) / ((sessionDurations events).length : ℚ))
          / 60000)
      else 0
    focusSessions := (analyzeFocusSessions events).map summarizeSession
    chainSummaries := (detectInformationChains events).map summarizeChain
    diversity := round3 (diversity events) }

/-- C9: on the empty input the analysis runs to completion (it is a total
function) and every field of the report is zero or empty: all-zero hourly
complexity and activity, no peak hours, zero average session minutes, no
focus sessions, no chains, zero diversity — and the transition pipelines
produce no edges. -/
theorem C9_empty_input :
    (analyze []).hourlyComplexity = List.replicate 24 0 ∧
    (analyze []).peakHours = [] ∧
    (analyze []).avgSessionMinutes = 0 ∧
    (analyze []).focusSessions = [] ∧
    (analyze []).chainSummaries = [] ∧
    (analyze []).diversity = 0 ∧
    hourlyActivity [] = List.replicate 24 0 ∧
    (∀ simFn relT tsT, processConnections simFn relT tsT [] = []) ∧
    processHistoryDataFallbackPopup [] = [] := by
  have hdiv : diversity ([] : List VisitEvent) = 0 := by
    unfold diversity domainCounts
    simp
  have hr3 : round3 0 = 0 := by
    unfold round3
    have h1 : (0 : ℝ) * 1000 + 1 / 2 = 1 / 2 := by norm_num
    rw [h1]
    have h2 : ⌊(1 / 2 : ℝ)⌋ = 0 := by
      rw [Int.floor_eq_zero_iff]
      constructor <;> norm_num
    rw [h2]
    norm_num
  refine ⟨by decide, by decide, by decide, rfl, rfl, ?_, by decide, fun _ _ _ => rfl, rfl⟩
  show round3 (diversity []) = 0
  rw [hdiv, hr3]

lemma jaccardSimilarity_comm (a b : List String) :
    jaccardSimilarity a b = jaccardSimilarity b a := by
  unfold jaccardSimilarity
  dsimp only
  rw [Finset.inter_comm, Finset.union_comm]

lemma domainSimilarity_comm (a b : String) :
    domainSimilarity a b = domainSimilarity b a := by
  unfold domainSimilarity
  by_cases h1 : a = b
  · rw [if_pos h1, if_pos h1.symm]
  · rw [if_neg h1, if_neg (Ne.symm h1)]
    have hc1 : (domainTld a = domainTld b ∧
        (domainTld a = "edu" ∨ domainTld a = "gov" ∨ domainTld a = "org")) ↔
        (domainTld b = domainTld a ∧
        (domainTld b = "edu" ∨ domainTld b = "gov" ∨ domainTld b = "org")) := by
      constructor <;> rintro ⟨h, hm⟩ <;> exact ⟨h.symm, h ▸ hm⟩
    have hc2 : (strIncl a b || strIncl b a) = (strIncl b a || strIncl a b) :=
      Bool.or_comm _ _
    exact if_congr hc1 rfl (if_congr (by rw [hc2]) rfl rfl)

lemma companySimilarity_comm (a b : String) :
    companySimilarity a b = companySimilarity b a := by
  unfold companySimilarity
  have h : (companies.any (fun g => companyHit g a && companyHit g b))
      = (companies.any (fun g => companyHit g b && companyHit g a)) := by
    simp only [Bool.and_comm]
  rw [h]

lemma semanticVectorSimilarity_comm (a b : SemVec) :
    semanticVectorSimilarity a b = semanticVectorSimilarity b a := by
  unfold semanticVectorSimilarity
  dsimp only
  rw [Finset.union_comm a.support b.support]
  rw [show (∑ k ∈ b.support ∪ a.support, a.val k * b.val k)
      = (∑ k ∈ b.support ∪ a.support, b.val k * a.val k) from
    Finset.sum_congr rfl (fun k _ => mul_comm _ _)]
  rw [mul_comm (Real.sqrt (∑ k ∈ b.support ∪ a.support, a.val k * a.val k))
    (Real.sqrt (∑ k ∈ b.support ∪ a.support, b.val k * b.val k))]

lemma calculateSimilarity_comm (fa fb : Feature) :
    calculateSimilarity fa fb = calculateSimilarity fb fa := by
  unfold calculateSimilarity
  dsimp only
  rw [semanticVectorSimilarity_comm, jaccardSimilarity_comm, domainSimilarity_comm,
    companySimilarity_comm]

lemma jaccardSimilarity_self (t : List String) (h : t ≠ []) :
    jaccardSimilarity t t = 1 := by
  unfold jaccardSimilarity
  dsimp only
  rw [Finset.inter_self, Finset.union_self]
  have hpos : 0 < t.toFinset.card := by
    rw [Finset.card_pos]
    obtain ⟨x, hx⟩ := List.exists_mem_of_ne_nil t h
    exact ⟨x, List.mem_toFinset.mpr hx⟩
  rw [if_pos hpos, Rat.mkRat_eq_div]
  exact div_self (by exact_mod_cast hpos.ne')

lemma companySimilarity_cases (a b : String) :
    companySimilarity a b = 0 ∨ companySimilarity a b = 1 := by
  unfold companySimilarity
  split_ifs
  · exact Or.inr rfl
  · exact Or.inl rfl

lemma semanticVectorSimilarity_self (v : SemVec) (k0 : String) (hk0 : k0 ∈ v.support)
    (hv : v.val k0 ≠ 0) : semanticVectorSimilarity v v = 1 := by
  unfold semanticVectorSimilarity
  dsimp only
  rw [Finset.union_self]
  rw [if_neg (Finset.ne_empty_of_mem hk0)]
  have hpos : 0 < ∑ k ∈ v.support, v.val k * v.val k :=
    lt_of_lt_of_le (mul_self_pos.mpr hv)
      (Finset.single_le_sum (fun i _ => mul_self_nonneg (v.val i)) hk0)
  rw [Real.mul_self_sqrt hpos.le]
  rw [if_neg hpos.ne']
  exact div_self hpos.ne'

lemma rawVal_pos (tokens : List String) (t0 : String) (h : t0 ∈ tokens) :
    0 < rawVal tokens t0 := by
  unfold rawVal
  have hmem : tokContrib t0 t0 ∈ tokens.map (fun t => tokContrib t t0) :=
    List.mem_map.mpr ⟨t0, h, rfl⟩
  have hge : tokContrib t0 t0 ≤ (tokens.map (fun t => tokContrib t t0)).sum :=
    List.single_le_sum
      (fun x hx => by
        obtain ⟨t, _, rfl⟩ := List.mem_map.mp hx
        exact tokContrib_nonneg t t0) _ hmem
  have hc : 0 < tokContrib t0 t0 := by
    unfold tokContrib
    rw [if_pos rfl]
    have h2 : (0 : ℚ) ≤ 2 * (((wordToGroups t0).filter
        (fun g => t0 = "GROUP_" ++ g)).length : ℚ) := by
      positivity
    have h310 : (0 : ℚ) < mkRat 3 10 := by
      rw [Rat.mkRat_eq_div]
      norm_num
    linarith
  linarith

lemma getSemanticVector_self_ne (tokens : List String) (t0 : String) (h : t0 ∈ tokens) :
    (getSemanticVector tokens).val t0 ≠ 0 := by
  unfold getSemanticVector
  dsimp only
  have hraw := rawVal_pos tokens t0 h
  split_ifs with hs
  · refine div_ne_zero ?_ ?_
    · exact_mod_cast hraw.ne'
    · exact Real.sqrt_ne_zero'.mpr (by exact_mod_cast hs)
  · exact_mod_cast hraw.ne'

lemma getSemanticVector_support_mem (tokens : List String) (t0 : String) (h : t0 ∈ tokens) :
    t0 ∈ (getSemanticVector tokens).support := by
  unfold getSemanticVector vecSupport
  dsimp only
  rw [List.mem_toFinset]
  exact List.mem_append_left _ h

lemma calculateSimilarity_self (F : Feature) (htok : F.tokens ≠ [])
    (hvec : F.semanticVector = getSemanticVector F.tokens) :
    calculateSimilarity F F = 1 := by
  obtain ⟨t0, ht0⟩ := List.exists_mem_of_ne_nil F.tokens htok
  have hsem : semanticVectorSimilarity F.semanticVector F.semanticVector = 1 := by
    rw [hvec]
    exact semanticVectorSimilarity_self _ t0 (getSemanticVector_support_mem _ _ ht0)
      (getSemanticVector_self_ne _ _ ht0)
  have hjac := jaccardSimilarity_self F.tokens htok
  have hdom : domainSimilarity F.domain F.domain = 1 := by
    unfold domainSimilarity
    rw [if_pos rfl]
  unfold calculateSimilarity
  dsimp only
  rw [hsem, hjac, hdom]
  rw [if_pos (Or.inl (show mkRat 6 10 ≤ (1 : ℚ) by decide))]
  rw [if_pos (show mkRat 6 10 ≤ (1 : ℚ) by decide)]
  rcases companySimilarity_cases F.domain F.domain with hc | hc <;> rw [hc]
  · rw [if_neg (show ¬ mkRat 9 10 ≤ (0 : ℚ) by decide)]
    push_cast
    rw [min_eq_right (by norm_num)]
  · rw [if_pos (show mkRat 9 10 ≤ (1 : ℚ) by decide)]
    push_cast
    rw [min_eq_right (by norm_num)]

lemma eventSimilarity_self (e : Item) (hparse : (parseUrl e.url).isSome = true)
    (htok : (extractFeatures e).tokens ≠ []) : eventSimilarity e e = 1 := by
  obtain ⟨u, hu⟩ := Option.isSome_iff_exists.mp hparse
  have hvec : (extractFeatures e).semanticVector
      = getSemanticVector (extractFeatures e).tokens := by
    unfold extractFeatures
    rw [hu]
  unfold eventSimilarity
  exact calculateSimilarity_self _ htok hvec

/-- C8 amended: the visit-event similarity is symmetric for all pairs, and
self-similarity is exactly 1.0 for every event whose URL parses (the normal
feature path) and whose extracted token list is non-empty.  (For an event
with a malformed URL and a non-empty title, the catch path keeps the title
as a token but leaves the semantic vector empty, and self-similarity is 0.9
— see the counterexample.) -/
theorem C8_amended :
    (∀ a b : Item, eventSimilarity a b = eventSimilarity b a) ∧
    (∀ e : Item, (parseUrl e.url).isSome = true → (extractFeatures e).tokens ≠ [] →
      eventSimilarity e e = 1) := by
  constructor
  · intro a b
    exact calculateSimilarity_comm _ _
  · intro e h1 h2
    exact eventSimilarity_self e h1 h2

/-- C8 witness: a concrete well-formed event (parseable URL, non-empty
tokens) whose self-similarity the amended theorem evaluates to 1. -/
theorem C8_witness :
    (parseUrl (Item.mk "https://github.com/user/repo" "hello world" 0).url).isSome = true ∧
    (extractFeatures ⟨"https://github.com/user/repo", "hello world", 0⟩).tokens ≠ [] ∧
    eventSimilarity ⟨"https://github.com/user/repo", "hello world", 0⟩
      ⟨"https://github.com/user/repo", "hello world", 0⟩ = 1 := by
  refine ⟨by decide, by decide, ?_⟩
  exact C8_amended.2 ⟨"https://github.com/user/repo", "hello world", 0⟩ (by decide) (by decide)

/-- C8 counterexample: the event with unparseable URL `foo` and title `hello`
has non-empty extracted tokens, yet its self-similarity is 0.9, not 1.0: the
catch path of `extractFeatures` leaves the semantic vector empty, so the
semantic cosine contributes 0 and the capped boosted sum is 0.3+0.2+0.4. -/
theorem C8_counterexample :
    (extractFeatures ⟨"foo", "hello", 0⟩).tokens ≠ [] ∧
    eventSimilarity ⟨"foo", "hello", 0⟩ ⟨"foo", "hello", 0⟩ ≠ 1 := by
  constructor
  · decide
  · have hfeat : extractFeatures ⟨"foo", "hello", 0⟩
        = { tokens := ["hello"], domain := "foo", semanticVector := ⟨∅, fun _ => 0⟩ } := rfl
    unfold eventSimilarity
    rw [hfeat]
    unfold calculateSimilarity
    dsimp only
    have hsem : semanticVectorSimilarity ⟨∅, fun _ => (0 : ℝ)⟩ ⟨∅, fun _ => (0 : ℝ)⟩ = 0 := by
      unfold semanticVectorSimilarity
      dsimp only
      rw [if_pos (by simp)]
    have hjac : jaccardSimilarity ["hello"] ["hello"] = 1 := by decide
    have hdom : domainSimilarity "foo" "foo" = 1 := by decide
    have hcomp : companySimilarity "foo" "foo" = 0 := by decide
    rw [hsem, hjac, hdom, hcomp]
    rw [if_pos (Or.inl (show mkRat 6 10 ≤ (1 : ℚ) by decide))]
    rw [if_pos (show mkRat 6 10 ≤ (1 : ℚ) by decide)]
    rw [if_neg (show ¬ mkRat 9 10 ≤ (0 : ℚ) by decide)]
    push_cast
    rw [min_eq_left (by norm_num)]
    norm_num

end CognitiveTrails
